import Mathlib

/-!
Verification of the vertex-centric cache (`src/level4/agents/cache_manager.rs`)
and the streaming inference pipeline (`src/level4/api/stream.rs`).

Modelling conventions:
* Rust `HashMap<String, V>` is embedded as an association list
  `List (String × V)` with unique keys (uniqueness is established as an
  invariant of reachable states); iteration order of the map is the list
  order.
* `f64` values are embedded as `Rat`: the cache only stores, clones and
  compares these numbers, and the statistics perform one division, so exact
  rational arithmetic is a faithful model of the data flow.
* Wall-clock reads (`current_timestamp`, `current_timestamp_ms`) are
  embedded by passing the clock value explicitly to each operation.
* The answer text handled by the streaming task is embedded as its UTF-8
  byte sequence (`List Nat`), because `stream_task` chunks the answer at
  byte granularity (`as_bytes().chunks(..)`) and re-decodes each chunk
  with `from_utf8(..).unwrap_or("")`.
-/

/-- Association-list lookup, the model of `HashMap::get`. -/
def alistLookup {β : Type} (k : String) : List (String × β) → Option β
  | [] => none
  | p :: rest => if p.1 = k then some p.2 else alistLookup k rest

/-- Association-list insert-or-replace, the model of `HashMap::insert`. -/
def alistInsert {β : Type} (k : String) (v : β) : List (String × β) → List (String × β)
  | [] => [(k, v)]
  | p :: rest => if p.1 = k then (k, v) :: rest else p :: alistInsert k v rest

/-- Association-list removal, the model of `HashMap::remove`. -/
def alistRemove {β : Type} (k : String) : List (String × β) → List (String × β)
  | [] => []
  | p :: rest => if p.1 = k then rest else p :: alistRemove k rest

/-- Cache entry for a vertex computation (`CacheEntry` in `cache_manager.rs`). -/
structure CacheEntry where
  vertex_id : String
  key : String
  value : List Rat
  timestamp : Nat
  access_count : Nat
  computation_cost : Rat
deriving DecidableEq, Repr

/-- Cache statistics (`CacheStats` in `cache_manager.rs`). -/
structure CacheStats where
  total_entries : Nat
  total_hits : Nat
  total_misses : Nat
  hit_rate : Rat
  avg_access_count : Rat
  memory_usage_mb : Rat
deriving DecidableEq, Repr

/-- The mutable state of a `VertexCentricCache`: the main table, the vertex
index, the capacity bound and the two counters. -/
structure VertexCentricCache where
  cache : List (String × CacheEntry)
  vertex_index : List (String × List String)
  max_entries : Nat
  hits : Nat
  misses : Nat
deriving DecidableEq, Repr

namespace VertexCentricCache

/-- `VertexCentricCache::new`. -/
def new (max_entries : Nat) : VertexCentricCache :=
  { cache := [], vertex_index := [], max_entries := max_entries, hits := 0, misses := 0 }

/-- `VertexCentricCache::make_cache_key`: joins the two ids with `":"`. -/
def make_cache_key (vertex_id key : String) : String :=
  vertex_id ++ ":" ++ key

/-- The pair selected by `cache.iter().min_by_key(|(_, e)| e.timestamp)`:
the first pair (in iteration order) whose entry has the minimal timestamp. -/
def minTimestampEntry : List (String × CacheEntry) → Option (String × CacheEntry)
  | [] => none
  | p :: rest =>
    match minTimestampEntry rest with
    | none => some p
    | some q => if p.2.timestamp ≤ q.2.timestamp then some p else some q

/-- `VertexCentricCache::evict_lru`: remove the first entry with the
globally smallest timestamp (a no-op on an empty table). -/
def evict_lru (cache : List (String × CacheEntry)) : List (String × CacheEntry) :=
  match minTimestampEntry cache with
  | none => cache
  | some p => alistRemove p.1 cache

/-- `VertexCentricCache::get` at clock value `t`: on a hit, bump the entry's
access count, refresh its timestamp, bump the hit counter and return the
stored value; on a miss, bump the miss counter. -/
def get (s : VertexCentricCache) (vertex_id key : String) (t : Nat) :
    Option (List Rat) × VertexCentricCache :=
  let cache_key := make_cache_key vertex_id key
  match alistLookup cache_key s.cache with
  | some entry =>
    let entry' := { entry with access_count := entry.access_count + 1, timestamp := t }
    (some entry.value,
      { s with cache := alistInsert cache_key entry' s.cache, hits := s.hits + 1 })
  | none => (none, { s with misses := s.misses + 1 })

/-- `index.entry(v).or_insert_with(Vec::new).push(cache_key)`: append the
composite key to the vertex's index row, creating the row when absent. -/
def indexAppend (v ck : String) : List (String × List String) → List (String × List String)
  | [] => [(v, [ck])]
  | p :: rest => if p.1 = v then (p.1, p.2 ++ [ck]) :: rest else p :: indexAppend v ck rest

/-- `VertexCentricCache::put` at clock value `t`: evict the LRU entry when
the table is at or above capacity, insert the fresh entry, and append the
composite key to the vertex's index row unconditionally.  The Rust function
returns `Result<()>` and always succeeds; the model returns the new state. -/
def put (s : VertexCentricCache) (vertex_id key : String) (value : List Rat)
    (computation_cost : Rat) (t : Nat) : VertexCentricCache :=
  let cache_key := make_cache_key vertex_id key
  let cache1 := if s.max_entries ≤ s.cache.length then evict_lru s.cache else s.cache
  let entry : CacheEntry :=
    { vertex_id := vertex_id, key := key, value := value, timestamp := t,
      access_count := 1, computation_cost := computation_cost }
  { s with
    cache := alistInsert cache_key entry cache1,
    vertex_index := indexAppend vertex_id cache_key s.vertex_index }

/-- `VertexCentricCache::get_vertex_entries`: resolve each key of the
vertex's index row against the main table, silently dropping dangling keys. -/
def get_vertex_entries (s : VertexCentricCache) (vertex_id : String) : List CacheEntry :=
  match alistLookup vertex_id s.vertex_index with
  | some keys => keys.filterMap (fun k => alistLookup k s.cache)
  | none => []

/-- `VertexCentricCache::invalidate_vertex`: remove the vertex's index row
and every cache entry the row referenced; a no-op when the row is absent. -/
def invalidate_vertex (s : VertexCentricCache) (vertex_id : String) : VertexCentricCache :=
  match alistLookup vertex_id s.vertex_index with
  | some keys =>
    { s with
      vertex_index := alistRemove vertex_id s.vertex_index,
      cache := keys.foldl (fun c k => alistRemove k c) s.cache }
  | none => s

/-- `VertexCentricCache::get_stats` (`f64` arithmetic modelled over `Rat`). -/
def get_stats (s : VertexCentricCache) : CacheStats :=
  let total_requests := s.hits + s.misses
  let hit_rate : Rat := if 0 < total_requests then (s.hits : Rat) / (total_requests : Rat) else 0
  let avg_access_count : Rat :=
    if s.cache ≠ [] then
      ((s.cache.map (fun p => (p.2.access_count : Rat))).sum) / (s.cache.length : Rat)
    else 0
  let memory_usage_mb : Rat := ((s.cache.length * 1024 : Nat) : Rat) / (1024 * 1024)
  { total_entries := s.cache.length, total_hits := s.hits, total_misses := s.misses,
    hit_rate := hit_rate, avg_access_count := avg_access_count,
    memory_usage_mb := memory_usage_mb }

/-- `VertexCentricCache::clear`. -/
def clear (s : VertexCentricCache) : VertexCentricCache :=
  { s with cache := [], vertex_index := [], hits := 0, misses := 0 }

/-- `VertexCentricCache::prefetch`: sums the sizes of the vertices' entry
lists through `get_vertex_entries`; it performs no `get` calls, so it
touches neither the counters nor the entries. -/
def prefetch (s : VertexCentricCache) (vertex_ids : List String) : Nat :=
  vertex_ids.foldl (fun n v => n + (get_vertex_entries s v).length) 0

end VertexCentricCache

/-- One public cache operation together with the clock values the Rust code
would read during it. -/
inductive CacheOp where
  | get (vertex_id key : String) (t : Nat)
  | put (vertex_id key : String) (value : List Rat) (computation_cost : Rat) (t : Nat)
  | getVertexEntries (vertex_id : String)
  | invalidateVertex (vertex_id : String)
  | getStats
  | clear
  | prefetch (vertex_ids : List String)
deriving DecidableEq

/-- The state transformation of one cache operation.  `get_vertex_entries`,
`get_stats` and `prefetch` only take read locks in the source and leave the
state unchanged. -/
def applyOp (op : CacheOp) (s : VertexCentricCache) : VertexCentricCache :=
  match op with
  | .get v k t => (s.get v k t).2
  | .put v k val cost t => s.put v k val cost t
  | .getVertexEntries _ => s
  | .invalidateVertex v => s.invalidate_vertex v
  | .getStats => s
  | .clear => s.clear
  | .prefetch _ => s

/-- Sequential execution of a list of cache operations. -/
def applyOps : List CacheOp → VertexCentricCache → VertexCentricCache
  | [], s => s
  | op :: rest, s => applyOps rest (applyOp op s)

example :
    (((VertexCentricCache.new 100).put "v1" "key1" [1, 2, 3] (1/2) 0).get "v1" "key1" 1).1
      = some [1, 2, 3] := by decide

/-! ## Streaming inference (`src/level4/api/stream.rs`) -/

/-- `true` iff the byte is a UTF-8 continuation byte (`0x80..=0xBF`). -/
def isCont (b : Nat) : Bool := 0x80 ≤ b && b ≤ 0xBF

/-- UTF-8 validity of a byte sequence, exactly the check performed by
`std::str::from_utf8` (RFC 3629 table: surrogates and out-of-range
code points rejected, shortest-form encodings enforced). -/
def utf8Valid : List Nat → Bool
  | [] => true
  | b :: rest =>
    if b ≤ 0x7F then utf8Valid rest
    else if 0xC2 ≤ b ∧ b ≤ 0xDF then
      match rest with
      | c1 :: rest1 => isCont c1 && utf8Valid rest1
      | [] => false
    else if b = 0xE0 then
      match rest with
      | c1 :: c2 :: rest2 => (0xA0 ≤ c1 && c1 ≤ 0xBF) && isCont c2 && utf8Valid rest2
      | _ => false
    else if 0xE1 ≤ b ∧ b ≤ 0xEC then
      match rest with
      | c1 :: c2 :: rest2 => isCont c1 && isCont c2 && utf8Valid rest2
      | _ => false
    else if b = 0xED then
      match rest with
      | c1 :: c2 :: rest2 => (0x80 ≤ c1 && c1 ≤ 0x9F) && isCont c2 && utf8Valid rest2
      | _ => false
    else if 0xEE ≤ b ∧ b ≤ 0xEF then
      match rest with
      | c1 :: c2 :: rest2 => isCont c1 && isCont c2 && utf8Valid rest2
      | _ => false
    else if b = 0xF0 then
      match rest with
      | c1 :: c2 :: c3 :: rest3 =>
        (0x90 ≤ c1 && c1 ≤ 0xBF) && isCont c2 && isCont c3 && utf8Valid rest3
      | _ => false
    else if 0xF1 ≤ b ∧ b ≤ 0xF3 then
      match rest with
      | c1 :: c2 :: c3 :: rest3 => isCont c1 && isCont c2 && isCont c3 && utf8Valid rest3
      | _ => false
    else if b = 0xF4 then
      match rest with
      | c1 :: c2 :: c3 :: rest3 =>
        (0x80 ≤ c1 && c1 ≤ 0x8F) && isCont c2 && isCont c3 && utf8Valid rest3
      | _ => false
    else false

/-- Fuel-driven worker for `listChunks`; the fuel is an upper bound on the
list length, so the unreachable out-of-fuel branch never fires. -/
def listChunksGo : Nat → Nat → List Nat → List (List Nat)
  | _, _, [] => []
  | _, 0, _ :: _ => []
  | 0, _ + 1, _ :: _ => []
  | fuel + 1, c + 1, x :: xs => ((x :: xs).take (c + 1)) :: listChunksGo fuel (c + 1) (xs.drop c)

/-- `full_answer.as_bytes().chunks(c)`: consecutive slices of `c` bytes,
the last one possibly shorter.  Rust's `slice::chunks` panics when `c = 0`;
that case is unreachable in every property below (all are stated for a
positive chunk size) and is mapped to the empty list. -/
def listChunks (c : Nat) (l : List Nat) : List (List Nat) :=
  listChunksGo l.length c l

theorem listChunksGo_fuel : ∀ (fuel₁ fuel₂ c : Nat) (l : List Nat),
    l.length ≤ fuel₁ → l.length ≤ fuel₂ → listChunksGo fuel₁ c l = listChunksGo fuel₂ c l := by
  intro fuel₁
  induction fuel₁ with
  | zero =>
    intro fuel₂ c l h₁ _
    have hl : l = [] := List.eq_nil_of_length_eq_zero (Nat.le_zero.mp h₁)
    subst hl
    cases fuel₂ <;> cases c <;> rfl
  | succ fuel ih =>
    intro fuel₂ c l h₁ h₂
    cases l with
    | nil => cases fuel₂ <;> cases c <;> rfl
    | cons x xs =>
      cases c with
      | zero => cases fuel₂ with
        | zero => exact absurd h₂ (by simp)
        | succ _ => rfl
      | succ c =>
        cases fuel₂ with
        | zero => exact absurd h₂ (by simp)
        | succ fuel₂ =>
          simp only [listChunksGo]
          have hd : (xs.drop c).length ≤ fuel := by
            have := List.length_drop c xs
            simp only [List.length_cons] at h₁
            omega
          have hd₂ : (xs.drop c).length ≤ fuel₂ := by
            have := List.length_drop c xs
            simp only [List.length_cons] at h₂
            omega
          rw [ih fuel₂ (c + 1) (xs.drop c) hd hd₂]

@[simp] theorem listChunks_nil (c : Nat) : listChunks c [] = [] := by
  cases c <;> rfl

theorem listChunks_cons (c : Nat) (x : Nat) (xs : List Nat) :
    listChunks (c + 1) (x :: xs) =
      ((x :: xs).take (c + 1)) :: listChunks (c + 1) (xs.drop c) := by
  show listChunksGo (x :: xs).length (c + 1) (x :: xs) = _
  simp only [List.length_cons, listChunksGo]
  congr 1
  exact listChunksGo_fuel xs.length (xs.drop c).length (c + 1) (xs.drop c)
    (by simp) (Nat.le_refl _)

/-- The UTF-8 bytes of an ASCII string (used to state concrete instances). -/
def asciiBytes (s : String) : List Nat := s.data.map Char.toNat

/-- Metadata attached to a stream chunk (`ChunkMetadata` in `stream.rs`). -/
structure ChunkMetadata where
  timestamp_ms : Nat
  graph_nodes_accessed : List String
  cache_hits : Nat
  confidence : Rat
deriving DecidableEq, Repr

/-- One emitted chunk (`StreamChunk` in `stream.rs`); `content` is kept as
the UTF-8 bytes of the chunk's string. -/
structure StreamChunk where
  chunk_id : Nat
  content : List Nat
  is_final : Bool
  metadata : ChunkMetadata
deriving DecidableEq, Repr

/-- Streaming configuration (`StreamConfig` in `stream.rs`). -/
structure StreamConfig where
  chunk_size : Nat
  chunk_delay_ms : Nat
  enable_parallel_graph : Bool
  max_concurrent_ops : Nat
deriving DecidableEq, Repr

/-- `StreamConfig::default()`. -/
def StreamConfig.default : StreamConfig :=
  { chunk_size := 50, chunk_delay_ms := 100, enable_parallel_graph := true,
    max_concurrent_ops := 4 }

namespace StreamingInference

/-- The four synthetic vertex ids `format!("vertex_{}_{}", chunk_id, i)`
probed for a chunk; they depend only on the chunk id. -/
def chunkVertexIds (chunk_id : Nat) : List String :=
  (List.range 4).map (fun i => "vertex_" ++ toString chunk_id ++ "_" ++ toString i)

/-- `StreamingInference::parallel_graph_access` at clock value `t`: fire a
`get(vertex_id, "embedding")` for each synthetic vertex, discard the
results, and return the probed ids.  The probes mutate the shared cache
(counters and entry recency), which the returned state records. -/
def parallel_graph_access (s : VertexCentricCache) (chunk_id : Nat) (t : Nat) :
    List String × VertexCentricCache :=
  let vertex_ids := chunkVertexIds chunk_id
  (vertex_ids, vertex_ids.foldl (fun st v => (st.get v "embedding" t).2) s)

/-- The chunk built for slice index `i` of `total` slices:
`content` falls back to `""` when the byte slice is not valid UTF-8
(`from_utf8(chunk).unwrap_or("")`), `is_final = (i == total - 1)`,
`cache_hits = i % 3` (the source comments it as simulated), and
`confidence = 0.85 + i * 0.01`. -/
def mkChunk (cfg : StreamConfig) (clock : Nat → Nat) (total i : Nat) (bytes : List Nat) :
    StreamChunk :=
  { chunk_id := i,
    content := if utf8Valid bytes then bytes else [],
    is_final := decide (i = total - 1),
    metadata :=
      { timestamp_ms := clock i,
        graph_nodes_accessed := if cfg.enable_parallel_graph then chunkVertexIds i else [],
        cache_hits := i % 3,
        confidence := 85 / 100 + (i : Rat) * (1 / 100) } }

/-- The chunk-emission loop of `stream_task` over the enumerated slices,
threading the shared cache through the per-chunk probe fan-outs.  The
receiver is kept open, so every `tx.send` succeeds. -/
def streamLoop (cfg : StreamConfig) (clock : Nat → Nat) (total : Nat) :
    List (Nat × List Nat) → VertexCentricCache → List StreamChunk × VertexCentricCache
  | [], s => ([], s)
  | p :: rest, s =>
    let s1 := if cfg.enable_parallel_graph then (parallel_graph_access s p.1 (clock p.1)).2 else s
    let r := streamLoop cfg clock total rest s1
    (mkChunk cfg clock total p.1 p.2 :: r.1, r.2)

/-- `StreamingInference::stream_task`: call the Reasoner once; on failure
return immediately (the chunk list sent into the channel is empty), on
success slice the answer bytes and emit one chunk per slice.  The Reasoner
call is embedded by its outcome `res`: `Except.ok` carries the
`final_answer` bytes of the returned `ReasoningChain`. -/
def stream_task (cfg : StreamConfig) (res : Except Unit (List Nat)) (clock : Nat → Nat)
    (s : VertexCentricCache) : List StreamChunk × VertexCentricCache :=
  match res with
  | .error _ => ([], s)
  | .ok full_answer =>
    let chunks := listChunks cfg.chunk_size full_answer
    streamLoop cfg clock chunks.length chunks.enum s

/-- `StreamingInference::collect_stream`: drain the received chunks in
order, concatenating `content`, and stop after the chunk marked final (or
when the channel closes). -/
def collect_stream : List StreamChunk → List Nat
  | [] => []
  | ch :: rest => if ch.is_final then ch.content else ch.content ++ collect_stream rest

end StreamingInference

namespace GLMReasoning

/-- `GLMReasoning::retrieval_step`'s output
(`format!("Retrieved context for: {}", input)` in `reasoning.rs`),
as UTF-8 bytes; the template is ASCII. -/
def retrieval_step_output (input : List Nat) : List Nat :=
  asciiBytes "Retrieved context for: " ++ input

/-- `GLMReasoning::inference_step`'s output
(`format!("Inferred answer from: {}", input)`). -/
def inference_step_output (input : List Nat) : List Nat :=
  asciiBytes "Inferred answer from: " ++ input

/-- `GLMReasoning::aggregation_step`'s output
(`format!("Aggregated result: {}", input)`). -/
def aggregation_step_output (input : List Nat) : List Nat :=
  asciiBytes "Aggregated result: " ++ input

/-- `GLMReasoning::verification_step`'s output
(`format!("Verified: {}", input)`). -/
def verification_step_output (input : List Nat) : List Nat :=
  asciiBytes "Verified: " ++ input

end GLMReasoning

/-- The `final_answer` of the `ReasoningChain` returned by
`GLMReasoning::reason` (`reasoning.rs:60-105`): the query is threaded
through the retrieval, inference and aggregation steps, then through the
verification step, since `GLMReasoning::new` sets
`enable_verification = true` (`reasoning.rs:50-57`); `final_answer` is the
last step's output, so the answer embeds the query's bytes verbatim. -/
def reasonerFinalAnswer (queryBytes : List Nat) : List Nat :=
  GLMReasoning.verification_step_output
    (GLMReasoning.aggregation_step_output
      (GLMReasoning.inference_step_output
        (GLMReasoning.retrieval_step_output queryBytes)))

example : (StreamingInference.stream_task StreamConfig.default
    (Except.ok (asciiBytes "ab")) (fun _ => 0) (VertexCentricCache.new 4)).1.length = 1 := by
  decide

/-- A string avoiding the composite-key delimiter. -/
def colonFree (v : String) : Bool := decide (':' ∉ v.data)

/-- Whether the operation is a `put` (used to state single-writer `put`
sequences). -/
def CacheOp.isPut : CacheOp → Bool
  | .put _ _ _ _ _ => true
  | _ => false

/-- Whether the operation is a `put` whose composite key is `ck`. -/
def CacheOp.writesKey (ck : String) : CacheOp → Bool
  | .put v k _ _ _ => VertexCentricCache.make_cache_key v k == ck
  | _ => false

/-- Whether the operation is a read-only `get_vertex_entries` or `prefetch`
call. -/
def CacheOp.isReadOnlyLookup : CacheOp → Bool
  | .getVertexEntries _ => true
  | .prefetch _ => true
  | _ => false

/-- Every `put` in the operation uses a delimiter-free vertex id. -/
def CacheOp.putVertexColonFree : CacheOp → Bool
  | .put v _ _ _ _ => colonFree v
  | _ => true

/-! ## Association-list lemmas -/

theorem alistLookup_insert_self {β : Type} (k : String) (v : β) (l : List (String × β)) :
    alistLookup k (alistInsert k v l) = some v := by
  induction l with
  | nil => simp [alistInsert, alistLookup]
  | cons p rest ih =>
    by_cases h : p.1 = k
    · simp [alistInsert, h, alistLookup]
    · simp [alistInsert, h, alistLookup, ih]

theorem alistLookup_insert_ne {β : Type} {k' k : String} (h : k' ≠ k) (v : β)
    (l : List (String × β)) : alistLookup k' (alistInsert k v l) = alistLookup k' l := by
  induction l with
  | nil => simp [alistInsert, alistLookup, Ne.symm h]
  | cons p rest ih =>
    by_cases hp : p.1 = k
    · subst hp
      simp [alistInsert, alistLookup, Ne.symm h]
    · simp [alistInsert, hp, alistLookup, ih]

theorem alistLookup_remove_ne {β : Type} {k' k : String} (h : k' ≠ k)
    (l : List (String × β)) : alistLookup k' (alistRemove k l) = alistLookup k' l := by
  induction l with
  | nil => rfl
  | cons p rest ih =>
    by_cases hp : p.1 = k
    · subst hp
      simp [alistRemove, alistLookup, Ne.symm h]
    · simp [alistRemove, hp, alistLookup, ih]

theorem alistKeys_remove_sublist {β : Type} (k : String) (l : List (String × β)) :
    ((alistRemove k l).map Prod.fst).Sublist (l.map Prod.fst) := by
  induction l with
  | nil => simp [alistRemove]
  | cons p rest ih =>
    by_cases hp : p.1 = k
    · simp only [alistRemove, if_pos hp, List.map_cons]
      exact (List.Sublist.refl _).cons _
    · simp only [alistRemove, if_neg hp, List.map_cons]
      exact ih.cons₂ _

theorem alistNodup_remove {β : Type} {l : List (String × β)} (k : String)
    (h : (l.map Prod.fst).Nodup) : ((alistRemove k l).map Prod.fst).Nodup :=
  (alistKeys_remove_sublist k l).nodup h

theorem alistLookup_eq_none_iff {β : Type} {k : String} {l : List (String × β)} :
    alistLookup k l = none ↔ k ∉ l.map Prod.fst := by
  induction l with
  | nil => simp [alistLookup]
  | cons p rest ih =>
    by_cases hp : p.1 = k
    · simp [alistLookup, hp]
    · rw [alistLookup, if_neg hp, ih]
      simp only [List.map_cons, List.mem_cons]
      constructor
      · intro h hc
        rcases hc with hc | hc
        · exact hp hc.symm
        · exact h hc
      · intro h hc
        exact h (Or.inr hc)

theorem alistLookup_remove_self {β : Type} {k : String} {l : List (String × β)}
    (h : (l.map Prod.fst).Nodup) : alistLookup k (alistRemove k l) = none := by
  induction l with
  | nil => rfl
  | cons p rest ih =>
    simp only [List.map_cons, List.nodup_cons] at h
    by_cases hp : p.1 = k
    · subst hp
      simp only [alistRemove, if_pos rfl]
      exact alistLookup_eq_none_iff.mpr h.1
    · simp only [alistRemove, if_neg hp, alistLookup, if_neg hp]
      exact ih h.2

theorem alistLookup_remove_none {β : Type} {k : String} (k₀ : String) {l : List (String × β)}
    (h : alistLookup k l = none) : alistLookup k (alistRemove k₀ l) = none := by
  induction l with
  | nil => rfl
  | cons p rest ih =>
    by_cases hp0 : p.1 = k₀
    · simp only [alistRemove, if_pos hp0]
      by_cases hp : p.1 = k
      · simp [alistLookup, hp] at h
      · simpa [alistLookup, hp] using h
    · by_cases hp : p.1 = k
      · simp [alistLookup, hp] at h
      · simp only [alistRemove, if_neg hp0, alistLookup, if_neg hp] at h ⊢
        exact ih h

theorem alistLookup_remove_some {β : Type} {k k₀ : String} {l : List (String × β)} {v : β}
    (hnd : (l.map Prod.fst).Nodup) (h : alistLookup k (alistRemove k₀ l) = some v) :
    alistLookup k l = some v := by
  by_cases hk : k = k₀
  · subst hk
    rw [alistLookup_remove_self hnd] at h
    exact absurd h (by simp)
  · rwa [alistLookup_remove_ne hk] at h

theorem alistRemove_length {β : Type} {k : String} {l : List (String × β)}
    (h : k ∈ l.map Prod.fst) : (alistRemove k l).length + 1 = l.length := by
  induction l with
  | nil => simp at h
  | cons p rest ih =>
    by_cases hp : p.1 = k
    · simp [alistRemove, hp]
    · simp only [List.map_cons, List.mem_cons] at h
      rcases h with h | h

      · exact absurd h.symm hp
      · simp only [alistRemove, if_neg hp, List.length_cons]
        rw [← ih h]

theorem alistInsert_length_le {β : Type} (k : String) (v : β) (l : List (String × β)) :
    (alistInsert k v l).length ≤ l.length + 1 := by
  induction l with
  | nil => simp [alistInsert]
  | cons p rest ih =>
    by_cases hp : p.1 = k
    · simp [alistInsert, hp]
    · simp only [alistInsert, if_neg hp, List.length_cons]
      omega

theorem alistKeys_insert_mem {β : Type} {x k : String} {v : β} {l : List (String × β)}
    (h : x ∈ (alistInsert k v l).map Prod.fst) : x = k ∨ x ∈ l.map Prod.fst := by
  induction l with
  | nil => simpa [alistInsert] using h
  | cons p rest ih =>
    by_cases hp : p.1 = k
    · simp only [alistInsert, if_pos hp, List.map_cons, List.mem_cons] at h
      rcases h with h | h
      · exact Or.inl h
      · exact Or.inr (by simp [h])
    · simp only [alistInsert, if_neg hp, List.map_cons, List.mem_cons] at h
      rcases h with h | h
      · exact Or.inr (by simp [h])
      · rcases ih h with h' | h'
        · exact Or.inl h'
        · exact Or.inr (by simp [h'])

theorem alistNodup_insert {β : Type} {l : List (String × β)} (k : String) (v : β)
    (h : (l.map Prod.fst).Nodup) : ((alistInsert k v l).map Prod.fst).Nodup := by
  induction l with
  | nil => simp [alistInsert]
  | cons p rest ih =>
    simp only [List.map_cons, List.nodup_cons] at h
    by_cases hp : p.1 = k
    · subst hp
      simp only [alistInsert, eq_self_iff_true, if_true, List.map_cons, List.nodup_cons]
      exact ⟨h.1, h.2⟩
    · simp only [alistInsert, if_neg hp, List.map_cons, List.nodup_cons]
      refine ⟨fun hmem => ?_, ih h.2⟩
      rcases alistKeys_insert_mem hmem with h' | h'
      · exact hp h'
      · exact h.1 h'

/-! ## Lemmas about the LRU victim selection and bulk removal -/

namespace VertexCentricCache

theorem minTimestampEntry_eq_none {c : List (String × CacheEntry)} :
    minTimestampEntry c = none ↔ c = [] := by
  cases c with
  | nil => simp [minTimestampEntry]
  | cons p rest =>
    simp only [minTimestampEntry]
    cases minTimestampEntry rest with
    | none => simp
    | some q =>
      by_cases h : p.2.timestamp ≤ q.2.timestamp <;> simp [h]

theorem minTimestampEntry_mem {c : List (String × CacheEntry)} {p : String × CacheEntry}
    (h : minTimestampEntry c = some p) : p ∈ c := by
  induction c with
  | nil => simp [minTimestampEntry] at h
  | cons q rest ih =>
    simp only [minTimestampEntry] at h
    split at h
    next hrest =>
      cases h
      exact List.mem_cons_self _ _
    next r hrest =>
      by_cases hle : q.2.timestamp ≤ r.2.timestamp
      · rw [if_pos hle] at h
        cases h
        exact List.mem_cons_self _ _
      · rw [if_neg hle] at h
        cases h
        exact List.mem_cons_of_mem _ (ih hrest)

theorem minTimestampEntry_min : ∀ {c : List (String × CacheEntry)}
    {p : String × CacheEntry}, minTimestampEntry c = some p →
    ∀ q ∈ c, p.2.timestamp ≤ q.2.timestamp := by
  intro c
  induction c with
  | nil => intro p h; simp [minTimestampEntry] at h
  | cons q rest ih =>
    intro p h r hr
    simp only [minTimestampEntry] at h
    split at h
    next hrest =>
      cases h
      rcases List.mem_cons.mp hr with hr | hr
      · simp [hr]
      · rw [minTimestampEntry_eq_none.mp hrest] at hr
        simp at hr
    next m hrest =>
      by_cases hle : q.2.timestamp ≤ m.2.timestamp
      · rw [if_pos hle] at h
        cases h
        rcases List.mem_cons.mp hr with hr | hr
        · simp [hr]
        · exact le_trans hle (ih hrest r hr)
      · rw [if_neg hle] at h
        cases h
        rcases List.mem_cons.mp hr with hr | hr
        · subst hr
          exact le_of_lt (lt_of_not_le hle)
        · exact ih hrest r hr

theorem evict_lru_length {c : List (String × CacheEntry)} (h : c ≠ []) :
    (evict_lru c).length + 1 = c.length := by
  rw [evict_lru]
  cases hm : minTimestampEntry c with
  | none => exact absurd (minTimestampEntry_eq_none.mp hm) h
  | some p =>
    exact alistRemove_length (List.mem_map_of_mem Prod.fst (minTimestampEntry_mem hm))

theorem evict_lru_lookup_some {c : List (String × CacheEntry)} {k : String} {e : CacheEntry}
    (hnd : (c.map Prod.fst).Nodup) (h : alistLookup k (evict_lru c) = some e) :
    alistLookup k c = some e := by
  rw [evict_lru] at h
  cases hm : minTimestampEntry c with
  | none => rwa [hm] at h
  | some p =>
    rw [hm] at h
    exact alistLookup_remove_some hnd h

/-- Looking up a key after the bulk removal performed by
`invalidate_vertex`: a surviving binding was already present, and its key is
not among the removed ones. -/
theorem foldl_remove_lookup_some {ks : List String} :
    ∀ {c : List (String × CacheEntry)} {k : String} {e : CacheEntry},
    (c.map Prod.fst).Nodup →
    alistLookup k (ks.foldl (fun c k => alistRemove k c) c) = some e →
    alistLookup k c = some e ∧ k ∉ ks := by
  induction ks with
  | nil => intro c k e _ h; exact ⟨h, by simp⟩
  | cons k₀ rest ih =>
    intro c k e hnd h
    simp only [List.foldl_cons] at h
    obtain ⟨h1, h2⟩ := ih (alistNodup_remove k₀ hnd) h
    by_cases hk : k = k₀
    · subst hk
      rw [alistLookup_remove_self hnd] at h1
      exact absurd h1 (by simp)
    · rw [alistLookup_remove_ne hk] at h1
      refine ⟨h1, ?_⟩
      simp only [List.mem_cons, not_or]
      exact ⟨hk, h2⟩

theorem foldl_remove_lookup_none {ks : List String} :
    ∀ {c : List (String × CacheEntry)} {k : String},
    alistLookup k c = none →
    alistLookup k (ks.foldl (fun c k => alistRemove k c) c) = none := by
  induction ks with
  | nil => intro c k h; exact h
  | cons k₀ rest ih =>
    intro c k h
    simp only [List.foldl_cons]
    exact ih (alistLookup_remove_none k₀ h)

theorem foldl_remove_lookup_mem {ks : List String} :
    ∀ {c : List (String × CacheEntry)} {k : String},
    (c.map Prod.fst).Nodup → k ∈ ks →
    alistLookup k (ks.foldl (fun c k => alistRemove k c) c) = none := by
  induction ks with
  | nil => intro c k _ h; simp at h
  | cons k₀ rest ih =>
    intro c k hnd hmem
    simp only [List.foldl_cons]
    rcases List.mem_cons.mp hmem with h | h
    · subst h
      exact foldl_remove_lookup_none (alistLookup_remove_self hnd)
    · exact ih (alistNodup_remove k₀ hnd) h

theorem foldl_remove_nodup {ks : List String} :
    ∀ {c : List (String × CacheEntry)}, (c.map Prod.fst).Nodup →
    (((ks.foldl (fun c k => alistRemove k c) c)).map Prod.fst).Nodup := by
  induction ks with
  | nil => intro c h; exact h
  | cons k₀ rest ih =>
    intro c hnd
    simp only [List.foldl_cons]
    exact ih (alistNodup_remove k₀ hnd)

/-! ### Index-row lemmas -/

theorem alistLookup_indexAppend_self (v ck : String) (idx : List (String × List String)) :
    alistLookup v (indexAppend v ck idx) =
      some ((alistLookup v idx).getD [] ++ [ck]) := by
  induction idx with
  | nil => simp [indexAppend, alistLookup]
  | cons p rest ih =>
    by_cases hp : p.1 = v
    · simp [indexAppend, hp, alistLookup]
    · simp [indexAppend, hp, alistLookup, ih]

theorem alistLookup_indexAppend_ne {w v : String} (h : w ≠ v) (ck : String)
    (idx : List (String × List String)) :
    alistLookup w (indexAppend v ck idx) = alistLookup w idx := by
  induction idx with
  | nil => simp [indexAppend, alistLookup, Ne.symm h]
  | cons p rest ih =>
    by_cases hp : p.1 = v
    · subst hp
      simp [indexAppend, alistLookup, Ne.symm h]
    · simp [indexAppend, hp, alistLookup, ih]

theorem indexAppend_mono {w v ck : String} {idx : List (String × List String)}
    {row : List String} (h : alistLookup w idx = some row) :
    ∃ row₂, alistLookup w (indexAppend v ck idx) = some row₂ ∧ ∀ x ∈ row, x ∈ row₂ := by
  by_cases hw : w = v
  · subst hw
    refine ⟨row ++ [ck], ?_, fun x hx => List.mem_append_left _ hx⟩
    rw [alistLookup_indexAppend_self, h]
    rfl
  · exact ⟨row, by rw [alistLookup_indexAppend_ne hw, h], fun x hx => hx⟩

theorem alistKeys_indexAppend_mem {x v ck : String} {idx : List (String × List String)}
    (h : x ∈ (indexAppend v ck idx).map Prod.fst) : x = v ∨ x ∈ idx.map Prod.fst := by
  induction idx with
  | nil => simpa [indexAppend] using h
  | cons p rest ih =>
    by_cases hp : p.1 = v
    · simp only [indexAppend, if_pos hp, List.map_cons, List.mem_cons] at h
      rcases h with h | h
      · exact Or.inr (by simp [h])
      · exact Or.inr (by simp [h])
    · simp only [indexAppend, if_neg hp, List.map_cons, List.mem_cons] at h
      rcases h with h | h
      · exact Or.inr (by simp [h])
      · rcases ih h with h' | h'
        · exact Or.inl h'
        · exact Or.inr (by simp [h'])

theorem alistNodup_indexAppend {idx : List (String × List String)} (v ck : String)
    (h : (idx.map Prod.fst).Nodup) : ((indexAppend v ck idx).map Prod.fst).Nodup := by
  induction idx with
  | nil => simp [indexAppend]
  | cons p rest ih =>
    simp only [List.map_cons, List.nodup_cons] at h
    by_cases hp : p.1 = v
    · simp only [indexAppend, if_pos hp, List.map_cons, List.nodup_cons]
      exact ⟨h.1, h.2⟩
    · simp only [indexAppend, if_neg hp, List.map_cons, List.nodup_cons]
      refine ⟨fun hmem => ?_, ih h.2⟩
      rcases alistKeys_indexAppend_mem hmem with h' | h'
      · exact hp h'
      · exact h.1 h'

/-! ## State invariants of reachable cache states -/

/-- Both hash maps have duplicate-free key lists (their model invariant). -/
def NodupState (s : VertexCentricCache) : Prop :=
  (s.cache.map Prod.fst).Nodup ∧ (s.vertex_index.map Prod.fst).Nodup

/-- Every live cache entry records the pair its composite key was built
from, and that composite key is listed in the entry's vertex index row. -/
def GoodState (s : VertexCentricCache) : Prop :=
  NodupState s ∧
  ∀ ck e, alistLookup ck s.cache = some e →
    ck = make_cache_key e.vertex_id e.key ∧
    ∃ row, alistLookup e.vertex_id s.vertex_index = some row ∧ ck ∈ row

/-- Every live cache entry has a delimiter-free vertex id. -/
def VertsColonFree (s : VertexCentricCache) : Prop :=
  ∀ ck e, alistLookup ck s.cache = some e → colonFree e.vertex_id = true

theorem get_hit {s : VertexCentricCache} {v k : String} {t : Nat} {e : CacheEntry}
    (h : alistLookup (make_cache_key v k) s.cache = some e) :
    s.get v k t = (some e.value,
      { s with
        cache := alistInsert (make_cache_key v k)
          { e with access_count := e.access_count + 1, timestamp := t } s.cache,
        hits := s.hits + 1 }) := by
  simp [VertexCentricCache.get, h]

theorem get_miss {s : VertexCentricCache} {v k : String} {t : Nat}
    (h : alistLookup (make_cache_key v k) s.cache = none) :
    s.get v k t = (none, { s with misses := s.misses + 1 }) := by
  simp [VertexCentricCache.get, h]

theorem invalidate_vertex_row {s : VertexCentricCache} {v : String} {keys : List String}
    (h : alistLookup v s.vertex_index = some keys) :
    s.invalidate_vertex v =
      { s with
        vertex_index := alistRemove v s.vertex_index,
        cache := keys.foldl (fun c k => alistRemove k c) s.cache } := by
  simp [invalidate_vertex, h]

theorem invalidate_vertex_noop {s : VertexCentricCache} {v : String}
    (h : alistLookup v s.vertex_index = none) : s.invalidate_vertex v = s := by
  simp [invalidate_vertex, h]

theorem evict_lru_nodup {c : List (String × CacheEntry)} (h : (c.map Prod.fst).Nodup) :
    ((evict_lru c).map Prod.fst).Nodup := by
  rw [evict_lru]
  split
  · exact h
  · exact alistNodup_remove _ h

theorem NodupState_new (max_entries : Nat) : NodupState (new max_entries) :=
  ⟨List.nodup_nil, List.nodup_nil⟩

theorem NodupState_applyOp {s : VertexCentricCache} (op : CacheOp) (h : NodupState s) :
    NodupState (applyOp op s) := by
  cases op with
  | get v k t =>
    show NodupState (s.get v k t).2
    cases hl : alistLookup (make_cache_key v k) s.cache with
    | some e => rw [get_hit hl]; exact ⟨alistNodup_insert _ _ h.1, h.2⟩
    | none => rw [get_miss hl]; exact h
  | put v k val cost t =>
    refine ⟨alistNodup_insert _ _ ?_, alistNodup_indexAppend _ _ h.2⟩
    by_cases hc : s.max_entries ≤ s.cache.length
    · simp only [applyOp, put, if_pos hc]
      exact evict_lru_nodup h.1
    · simp only [applyOp, put, if_neg hc]
      exact h.1
  | getVertexEntries v => exact h
  | invalidateVertex v =>
    show NodupState (s.invalidate_vertex v)
    cases hl : alistLookup v s.vertex_index with
    | some keys =>
      rw [invalidate_vertex_row hl]
      exact ⟨foldl_remove_nodup h.1, alistNodup_remove _ h.2⟩
    | none => rw [invalidate_vertex_noop hl]; exact h
  | getStats => exact h
  | clear => exact ⟨List.nodup_nil, List.nodup_nil⟩
  | prefetch vs => exact h

theorem GoodState_new (max_entries : Nat) : GoodState (new max_entries) :=
  ⟨NodupState_new max_entries, by intro ck e h; simp [alistLookup] at h⟩

theorem GoodState_applyOp {s : VertexCentricCache} (op : CacheOp) (h : GoodState s) :
    GoodState (applyOp op s) := by
  obtain ⟨hnd, hinv⟩ := h
  refine ⟨NodupState_applyOp op ⟨hnd.1, hnd.2⟩, ?_⟩
  cases op with
  | get v k t =>
    cases hl : alistLookup (make_cache_key v k) s.cache with
    | some e₀ =>
      have hstate : applyOp (CacheOp.get v k t) s =
          { s with
            cache := alistInsert (make_cache_key v k)
              { e₀ with access_count := e₀.access_count + 1, timestamp := t } s.cache,
            hits := s.hits + 1 } := by
        show (s.get v k t).2 = _
        rw [get_hit hl]
      rw [hstate]
      intro ck e he
      dsimp only at he ⊢
      by_cases hck : ck = make_cache_key v k
      · subst hck
        rw [alistLookup_insert_self] at he
        cases he
        exact hinv (make_cache_key v k) e₀ hl
      · rw [alistLookup_insert_ne hck] at he
        exact hinv _ _ he
    | none =>
      have hstate : applyOp (CacheOp.get v k t) s = { s with misses := s.misses + 1 } := by
        show (s.get v k t).2 = _
        rw [get_miss hl]
      rw [hstate]
      exact hinv
  | put v k val cost t =>
    intro ck e he
    show ck = make_cache_key e.vertex_id e.key ∧
      ∃ row, alistLookup e.vertex_id (indexAppend v (make_cache_key v k) s.vertex_index)
        = some row ∧ ck ∈ row
    by_cases hck : ck = make_cache_key v k
    · subst hck
      have hnew : alistLookup (make_cache_key v k)
          (applyOp (CacheOp.put v k val cost t) s).cache
          = some { vertex_id := v, key := k, value := val, timestamp := t,
                   access_count := 1, computation_cost := cost } := by
        show alistLookup _ (alistInsert _ _ _) = _
        exact alistLookup_insert_self _ _ _
      rw [hnew] at he
      cases he
      refine ⟨rfl, (alistLookup v s.vertex_index).getD [] ++ [make_cache_key v k], ?_, ?_⟩
      · exact alistLookup_indexAppend_self v _ s.vertex_index
      · simp
    · have he' : alistLookup ck (if s.max_entries ≤ s.cache.length then
          evict_lru s.cache else s.cache) = some e := by
        have hc : (applyOp (CacheOp.put v k val cost t) s).cache
            = alistInsert (make_cache_key v k)
                { vertex_id := v, key := k, value := val, timestamp := t,
                  access_count := 1, computation_cost := cost }
                (if s.max_entries ≤ s.cache.length then
                  evict_lru s.cache else s.cache) := rfl
        rw [hc, alistLookup_insert_ne hck] at he
        exact he
      have he₀ : alistLookup ck s.cache = some e := by
        by_cases hc : s.max_entries ≤ s.cache.length
        · rw [if_pos hc] at he'
          exact evict_lru_lookup_some hnd.1 he'
        · rwa [if_neg hc] at he'
      obtain ⟨hshape, row, hrow, hmem⟩ := hinv _ _ he₀
      obtain ⟨row₂, hrow₂, hsub⟩ :=
        @indexAppend_mono _ v (make_cache_key v k) _ _ hrow
      exact ⟨hshape, row₂, hrow₂, hsub _ hmem⟩
  | getVertexEntries v => exact hinv
  | invalidateVertex v =>
    cases hl : alistLookup v s.vertex_index with
    | some keys =>
      have hstate : applyOp (CacheOp.invalidateVertex v) s =
          { s with
            vertex_index := alistRemove v s.vertex_index,
            cache := keys.foldl (fun c k => alistRemove k c) s.cache } := by
        show s.invalidate_vertex v = _
        rw [invalidate_vertex_row hl]
      rw [hstate]
      intro ck e he
      dsimp only at he ⊢
      obtain ⟨he₀, hnotin⟩ := foldl_remove_lookup_some hnd.1 he
      obtain ⟨hshape, row, hrow, hmem⟩ := hinv _ _ he₀
      refine ⟨hshape, row, ?_, hmem⟩
      by_cases hv : e.vertex_id = v
      · subst hv
        rw [hrow] at hl
        cases hl
        exact absurd hmem hnotin
      · rwa [alistLookup_remove_ne hv]
    | none =>
      have hstate : applyOp (CacheOp.invalidateVertex v) s = s := by
        show s.invalidate_vertex v = _
        rw [invalidate_vertex_noop hl]
      rw [hstate]
      exact hinv
  | getStats => exact hinv
  | clear =>
    intro ck e he
    simp [alistLookup] at he
  | prefetch vs => exact hinv

theorem VertsColonFree_new (max_entries : Nat) : VertsColonFree (new max_entries) := by
  intro ck e h
  simp [alistLookup] at h

theorem VertsColonFree_applyOp {s : VertexCentricCache} {op : CacheOp}
    (hop : op.putVertexColonFree = true) (hnd : NodupState s) (h : VertsColonFree s) :
    VertsColonFree (applyOp op s) := by
  cases op with
  | get v k t =>
    cases hl : alistLookup (make_cache_key v k) s.cache with
    | some e₀ =>
      have hstate : applyOp (CacheOp.get v k t) s =
          { s with
            cache := alistInsert (make_cache_key v k)
              { e₀ with access_count := e₀.access_count + 1, timestamp := t } s.cache,
            hits := s.hits + 1 } := by
        show (s.get v k t).2 = _
        rw [get_hit hl]
      rw [hstate]
      intro ck e he
      dsimp only at he
      by_cases hck : ck = make_cache_key v k
      · subst hck
        rw [alistLookup_insert_self] at he
        cases he
        exact h (make_cache_key v k) e₀ hl
      · rw [alistLookup_insert_ne hck] at he
        exact h _ _ he
    | none =>
      have hstate : applyOp (CacheOp.get v k t) s = { s with misses := s.misses + 1 } := by
        show (s.get v k t).2 = _
        rw [get_miss hl]
      rw [hstate]
      exact h
  | put v k val cost t =>
    intro ck e he
    by_cases hck : ck = make_cache_key v k
    · subst hck
      have hnew : alistLookup (make_cache_key v k)
          (applyOp (CacheOp.put v k val cost t) s).cache
          = some { vertex_id := v, key := k, value := val, timestamp := t,
                   access_count := 1, computation_cost := cost } := by
        show alistLookup _ (alistInsert _ _ _) = _
        exact alistLookup_insert_self _ _ _
      rw [hnew] at he
      cases he
      exact hop
    · have he' : alistLookup ck (if s.max_entries ≤ s.cache.length then
          evict_lru s.cache else s.cache) = some e := by
        have hc : (applyOp (CacheOp.put v k val cost t) s).cache
            = alistInsert (make_cache_key v k)
                { vertex_id := v, key := k, value := val, timestamp := t,
                  access_count := 1, computation_cost := cost }
                (if s.max_entries ≤ s.cache.length then
                  evict_lru s.cache else s.cache) := rfl
        rw [hc, alistLookup_insert_ne hck] at he
        exact he
      have he₀ : alistLookup ck s.cache = some e := by
        by_cases hc : s.max_entries ≤ s.cache.length
        · rw [if_pos hc] at he'
          exact evict_lru_lookup_some hnd.1 he'
        · rwa [if_neg hc] at he'
      exact h _ _ he₀
  | getVertexEntries v => exact h
  | invalidateVertex v =>
    cases hl : alistLookup v s.vertex_index with
    | some keys =>
      have hstate : applyOp (CacheOp.invalidateVertex v) s =
          { s with
            vertex_index := alistRemove v s.vertex_index,
            cache := keys.foldl (fun c k => alistRemove k c) s.cache } := by
        show s.invalidate_vertex v = _
        rw [invalidate_vertex_row hl]
      rw [hstate]
      intro ck e he
      dsimp only at he
      obtain ⟨he₀, _⟩ := foldl_remove_lookup_some hnd.1 he
      exact h _ _ he₀
    | none =>
      have hstate : applyOp (CacheOp.invalidateVertex v) s = s := by
        show s.invalidate_vertex v = _
        rw [invalidate_vertex_noop hl]
      rw [hstate]
      exact h
  | getStats => exact h
  | clear =>
    intro ck e he
    simp [alistLookup] at he
  | prefetch vs => exact h

theorem GoodState_applyOps {ops : List CacheOp} :
    ∀ {s : VertexCentricCache}, GoodState s → GoodState (applyOps ops s) := by
  induction ops with
  | nil => intro s h; exact h
  | cons op rest ih => intro s h; exact ih (GoodState_applyOp op h)

theorem sep_append_inj : ∀ (a x b y : List Char), ':' ∉ a → ':' ∉ x →
    a ++ ':' :: b = x ++ ':' :: y → a = x ∧ b = y := by
  intro a
  induction a with
  | nil =>
    intro x b y _ hx h
    cases x with
    | nil => simpa using h
    | cons c x' =>
      simp only [List.nil_append, List.cons_append, List.cons.injEq] at h
      have hc : c = ':' := h.1.symm
      subst hc
      exact absurd (List.mem_cons_self _ _) hx
  | cons c a' ih =>
    intro x b y ha hx h
    cases x with
    | nil =>
      simp only [List.cons_append, List.nil_append, List.cons.injEq] at h
      have hc : c = ':' := h.1
      subst hc
      exact absurd (List.mem_cons_self _ _) ha
    | cons d x' =>
      simp only [List.cons_append, List.cons.injEq] at h
      obtain ⟨hcd, h'⟩ := h
      subst hcd
      have ha' : ':' ∉ a' := fun hm => ha (List.mem_cons_of_mem _ hm)
      have hx' : ':' ∉ x' := fun hm => hx (List.mem_cons_of_mem _ hm)
      obtain ⟨h1, h2⟩ := ih x' b y ha' hx' h'
      exact ⟨by rw [h1], h2⟩

/-- Composite keys built from delimiter-free vertex ids are injective; for
delimiter-carrying ids distinct pairs can collide (the latent hazard the
spec flags in §3/§9). -/
theorem make_cache_key_inj {v k v' k' : String} (hv : colonFree v = true)
    (hv' : colonFree v' = true) (h : make_cache_key v k = make_cache_key v' k') :
    v = v' ∧ k = k' := by
  have h2 := congrArg String.data h
  simp only [make_cache_key, String.data_append] at h2
  have hd : v.data ++ ':' :: k.data = v'.data ++ ':' :: k'.data := by
    simpa [List.append_assoc] using h2
  have hv2 : ':' ∉ v.data := of_decide_eq_true hv
  have hv'2 : ':' ∉ v'.data := of_decide_eq_true hv'
  obtain ⟨h1, hk⟩ := sep_append_inj _ _ _ _ hv2 hv'2 hd
  exact ⟨String.ext h1, String.ext hk⟩

theorem put_max_entries (s : VertexCentricCache) (v k : String) (val : List Rat)
    (cost : Rat) (t : Nat) : (s.put v k val cost t).max_entries = s.max_entries := rfl

theorem put_length_le {s : VertexCentricCache} (h1 : 1 ≤ s.max_entries)
    (h : s.cache.length ≤ s.max_entries) (v k : String) (val : List Rat)
    (cost : Rat) (t : Nat) : (s.put v k val cost t).cache.length ≤ s.max_entries := by
  show (alistInsert (make_cache_key v k) _
      (if s.max_entries ≤ s.cache.length then evict_lru s.cache else s.cache)).length ≤ _
  by_cases hc : s.max_entries ≤ s.cache.length
  · rw [if_pos hc]
    have hne : s.cache ≠ [] := by
      intro hnil
      rw [hnil] at hc
      simp at hc
      omega
    have hlen := evict_lru_length hne
    have hins := alistInsert_length_le (make_cache_key v k)
      { vertex_id := v, key := k, value := val, timestamp := t,
        access_count := 1, computation_cost := cost } (evict_lru s.cache)
    omega
  · rw [if_neg hc]
    have hlt : s.cache.length < s.max_entries := by omega
    have hins := alistInsert_length_le (make_cache_key v k)
      { vertex_id := v, key := k, value := val, timestamp := t,
        access_count := 1, computation_cost := cost } s.cache
    omega

theorem VertsColonFree_applyOps {ops : List CacheOp} :
    ∀ {s : VertexCentricCache}, (∀ op ∈ ops, op.putVertexColonFree = true) →
    GoodState s → VertsColonFree s → VertsColonFree (applyOps ops s) := by
  induction ops with
  | nil => intro s _ _ h; exact h
  | cons op rest ih =>
    intro s hops hg h
    exact ih (fun o ho => hops o (List.mem_cons_of_mem _ ho))
      (GoodState_applyOp op hg)
      (VertsColonFree_applyOp (hops op (List.mem_cons_self _ _)) hg.1 h)

end VertexCentricCache


/-! ## Claim theorems -/

/-- C2 (amended): for every `max_entries ≥ 1`, along any sequence of `put`
calls from a single caller the main table's size never exceeds
`max_entries` after every `put`, and every eviction removes a pair whose
entry has the smallest last-access timestamp among all entries present
just before the eviction.  (The original claim, quantified over every
`max_entries`, fails at `max_entries = 0`, where `evict_lru` on the empty
table is a no-op and the subsequent insert leaves one entry.) -/
theorem put_capacity_and_lru_eviction :
    (∀ (ops : List CacheOp) (s : VertexCentricCache), 1 ≤ s.max_entries →
      s.cache.length ≤ s.max_entries → (∀ op ∈ ops, op.isPut = true) →
      ∀ i, (applyOps (ops.take i) s).cache.length ≤ s.max_entries)
    ∧ (∀ c : List (String × CacheEntry), c ≠ [] →
      ∃ p, VertexCentricCache.minTimestampEntry c = some p ∧ p ∈ c ∧
        VertexCentricCache.evict_lru c = alistRemove p.1 c ∧
        ∀ q ∈ c, p.2.timestamp ≤ q.2.timestamp) := by
  constructor
  · intro ops
    induction ops with
    | nil =>
      intro s h1 h2 _ i
      simpa [applyOps] using h2
    | cons op rest ih =>
      intro s h1 h2 hops i
      cases i with
      | zero => simpa [applyOps] using h2
      | succ j =>
        have hop := hops op (List.mem_cons_self _ _)
        cases op with
        | put v k val cost t =>
          have hstep : (applyOp (CacheOp.put v k val cost t) s).cache.length ≤ s.max_entries :=
            VertexCentricCache.put_length_le h1 h2 v k val cost t
          have hmax : (applyOp (CacheOp.put v k val cost t) s).max_entries = s.max_entries := rfl
          have hrec := ih (applyOp (CacheOp.put v k val cost t) s) (by rw [hmax]; exact h1)
            (by rw [hmax]; exact hstep) (fun o ho => hops o (List.mem_cons_of_mem _ ho)) j
          rw [hmax] at hrec
          rw [List.take_succ_cons, applyOps]
          exact hrec
        | get v k t => simp [CacheOp.isPut] at hop
        | getVertexEntries v => simp [CacheOp.isPut] at hop
        | invalidateVertex v => simp [CacheOp.isPut] at hop
        | getStats => simp [CacheOp.isPut] at hop
        | clear => simp [CacheOp.isPut] at hop
        | prefetch vs => simp [CacheOp.isPut] at hop
  · intro c hne
    cases hm : VertexCentricCache.minTimestampEntry c with
    | none => exact absurd (VertexCentricCache.minTimestampEntry_eq_none.mp hm) hne
    | some p =>
      refine ⟨p, rfl, VertexCentricCache.minTimestampEntry_mem hm, ?_,
        VertexCentricCache.minTimestampEntry_min hm⟩
      rw [VertexCentricCache.evict_lru, hm]

/-- C2 witness: two puts into a singleton-capacity cache keep the table at
one entry, and on a concrete one-entry table the eviction picks that
minimal-timestamp pair. -/
theorem put_capacity_and_lru_eviction_witness :
    ((applyOps [CacheOp.put "a" "x" [] 0 0, CacheOp.put "b" "y" [] 0 1]
        (VertexCentricCache.new 1)).cache.length ≤ 1) ∧
    (∃ p, VertexCentricCache.minTimestampEntry
        [("a:k", (⟨"a", "k", [], 5, 1, 0⟩ : CacheEntry))] = some p ∧
      p ∈ [("a:k", (⟨"a", "k", [], 5, 1, 0⟩ : CacheEntry))] ∧
      VertexCentricCache.evict_lru [("a:k", (⟨"a", "k", [], 5, 1, 0⟩ : CacheEntry))] =
        alistRemove p.1 [("a:k", (⟨"a", "k", [], 5, 1, 0⟩ : CacheEntry))] ∧
      ∀ q ∈ [("a:k", (⟨"a", "k", [], 5, 1, 0⟩ : CacheEntry))],
        p.2.timestamp ≤ q.2.timestamp) := by
  constructor
  · have h := put_capacity_and_lru_eviction.1
      [CacheOp.put "a" "x" [] 0 0, CacheOp.put "b" "y" [] 0 1]
      (VertexCentricCache.new 1) (by decide) (by decide) (by decide) 2
    simpa using h
  · exact put_capacity_and_lru_eviction.2 _ (by decide)

/-- C2 counterexample: with `max_entries = 0`, after one `put` (`n = 1 >
0 = max_entries`) the table holds one entry, exceeding `max_entries`;
`evict_lru` on the empty table removed nothing. -/
theorem put_capacity_exceeded_at_zero_max :
    ((VertexCentricCache.new 0).put "v" "k" [] 0 0).cache.length = 1 ∧
    ((VertexCentricCache.new 0).put "v" "k" [] 0 0).max_entries = 0 := by
  decide

/-- C7: the `hit_rate` reported by `get_stats` equals
`hits / (hits + misses)` (exact rational arithmetic modelling the `f64`
division) and is `0` when no request has been counted. -/
theorem get_stats_hit_rate (s : VertexCentricCache) :
    (s.get_stats).hit_rate =
      if s.hits + s.misses = 0 then 0
      else (s.hits : Rat) / ((s.hits + s.misses : Nat) : Rat) := by
  show (if 0 < s.hits + s.misses
    then (s.hits : Rat) / ((s.hits + s.misses : Nat) : Rat) else 0) = _
  by_cases h : s.hits + s.misses = 0
  · rw [if_neg (by omega), if_pos h]
  · rw [if_pos (by omega : 0 < s.hits + s.misses), if_neg h]

/-- C9: `get_vertex_entries` and `prefetch` are pure reads: any sequence of
them leaves the whole cache state (main table, vertex index, hit and miss
counters, and thus every entry's access count and timestamp) unchanged. -/
theorem readonly_lookups_preserve_state (ops : List CacheOp) (s : VertexCentricCache)
    (h : ∀ op ∈ ops, op.isReadOnlyLookup = true) : applyOps ops s = s := by
  induction ops with
  | nil => rfl
  | cons op rest ih =>
    have hop := h op (List.mem_cons_self _ _)
    have hid : applyOp op s = s := by
      cases op with
      | getVertexEntries v => rfl
      | prefetch vs => rfl
      | get v k t => simp [CacheOp.isReadOnlyLookup] at hop
      | put v k val cost t => simp [CacheOp.isReadOnlyLookup] at hop
      | invalidateVertex v => simp [CacheOp.isReadOnlyLookup] at hop
      | getStats => simp [CacheOp.isReadOnlyLookup] at hop
      | clear => simp [CacheOp.isReadOnlyLookup] at hop
    rw [applyOps, hid]
    exact ih (fun o ho => h o (List.mem_cons_of_mem _ ho))

/-- C9 witness: a `get_vertex_entries` and a `prefetch` on a concrete
one-entry cache leave the state exactly as it was. -/
theorem readonly_lookups_preserve_state_witness :
    applyOps [CacheOp.getVertexEntries "v1", CacheOp.prefetch ["a", "b"]]
      ((VertexCentricCache.new 5).put "v1" "k" [1] 0 0) =
      (VertexCentricCache.new 5).put "v1" "k" [1] 0 0 :=
  readonly_lookups_preserve_state _ _ (by decide)

/-- The entry a `put v k` with arguments `(value, cost, t)` writes. -/
def mkPutEntry (v k : String) (a : List Rat × Rat × Nat) : CacheEntry :=
  { vertex_id := v, key := k, value := a.1, timestamp := a.2.2,
    access_count := 1, computation_cost := a.2.1 }

/-- `m` consecutive `put` calls for the same `(vertex_id, key)` pair, each
carrying `(value, computation_cost, clock)`. -/
def applyPutsSame (v k : String) : List (List Rat × Rat × Nat) → VertexCentricCache →
    VertexCentricCache
  | [], s => s
  | a :: rest, s => applyPutsSame v k rest (s.put v k a.1 a.2.1 a.2.2)

theorem put_on_empty (v k : String) (max : Nat) (a : List Rat × Rat × Nat) :
    (VertexCentricCache.new max).put v k a.1 a.2.1 a.2.2 =
      { cache := [(VertexCentricCache.make_cache_key v k, mkPutEntry v k a)],
        vertex_index := [(v, List.replicate 1 (VertexCentricCache.make_cache_key v k))],
        max_entries := max, hits := 0, misses := 0 } := by
  by_cases h : max ≤ 0
  · simp [VertexCentricCache.new, VertexCentricCache.put, h, VertexCentricCache.evict_lru,
      VertexCentricCache.minTimestampEntry, alistInsert, VertexCentricCache.indexAppend,
      mkPutEntry]
  · simp [VertexCentricCache.new, VertexCentricCache.put, h, alistInsert,
      VertexCentricCache.indexAppend, mkPutEntry]

theorem put_on_singleton (v k : String) (max hs ms m : Nat) (e : CacheEntry)
    (a : List Rat × Rat × Nat) :
    ({ cache := [(VertexCentricCache.make_cache_key v k, e)],
       vertex_index := [(v, List.replicate (m + 1) (VertexCentricCache.make_cache_key v k))],
       max_entries := max, hits := hs, misses := ms } : VertexCentricCache).put
        v k a.1 a.2.1 a.2.2
    = { cache := [(VertexCentricCache.make_cache_key v k, mkPutEntry v k a)],
        vertex_index :=
          [(v, List.replicate (m + 2) (VertexCentricCache.make_cache_key v k))],
        max_entries := max, hits := hs, misses := ms } := by
  have hrep : List.replicate (m + 1) (VertexCentricCache.make_cache_key v k) ++
      [VertexCentricCache.make_cache_key v k]
      = List.replicate (m + 2) (VertexCentricCache.make_cache_key v k) :=
    (List.replicate_succ' (m + 1) (VertexCentricCache.make_cache_key v k)).symm
  by_cases h : max ≤ 1
  · simp [VertexCentricCache.put, h, VertexCentricCache.evict_lru,
      VertexCentricCache.minTimestampEntry, alistRemove, alistInsert,
      VertexCentricCache.indexAppend, mkPutEntry, hrep]
  · simp [VertexCentricCache.put, h, alistInsert, VertexCentricCache.indexAppend,
      mkPutEntry, hrep]

theorem applyPutsSame_on_singleton (v k : String) (max hs ms : Nat) :
    ∀ (args : List (List Rat × Rat × Nat)) (m : Nat) (e : CacheEntry),
    applyPutsSame v k args
      { cache := [(VertexCentricCache.make_cache_key v k, e)],
        vertex_index := [(v, List.replicate (m + 1) (VertexCentricCache.make_cache_key v k))],
        max_entries := max, hits := hs, misses := ms }
    = { cache := [(VertexCentricCache.make_cache_key v k,
          args.foldl (fun _ x => mkPutEntry v k x) e)],
        vertex_index :=
          [(v, List.replicate (m + args.length + 1)
            (VertexCentricCache.make_cache_key v k))],
        max_entries := max, hits := hs, misses := ms } := by
  intro args
  induction args with
  | nil => intro m e; simp [applyPutsSame]
  | cons a rest ih =>
    intro m e
    show applyPutsSame v k rest _ = _
    rw [put_on_singleton v k max hs ms m e a]
    rw [ih (m + 1) (mkPutEntry v k a)]
    have hm : m + 1 + rest.length + 1 = m + (rest.length + 1) + 1 := by omega
    simp [hm, List.foldl_cons]

theorem applyPutsSame_new_cons (v k : String) (max : Nat) (b : List Rat × Rat × Nat)
    (rest : List (List Rat × Rat × Nat)) :
    applyPutsSame v k (b :: rest) (VertexCentricCache.new max)
    = { cache := [(VertexCentricCache.make_cache_key v k,
          rest.foldl (fun _ x => mkPutEntry v k x) (mkPutEntry v k b))],
        vertex_index :=
          [(v, List.replicate (rest.length + 1) (VertexCentricCache.make_cache_key v k))],
        max_entries := max, hits := 0, misses := 0 } := by
  show applyPutsSame v k rest _ = _
  rw [put_on_empty v k max b]
  have h := applyPutsSame_on_singleton v k max 0 0 rest 0 (mkPutEntry v k b)
  simpa using h

theorem filterMap_replicate_lookup (m : Nat) (ck : String) (e : CacheEntry) :
    (List.replicate m ck).filterMap (fun kk => alistLookup kk [(ck, e)])
      = List.replicate m e := by
  induction m with
  | zero => rfl
  | succ n ih =>
    simp only [List.replicate_succ, List.filterMap_cons]
    rw [show alistLookup ck [(ck, e)] = some e by simp [alistLookup]]
    rw [ih]

/-- C8: every `put` appends the composite key to the vertex's index row
unconditionally (even when the entry is being overwritten), so after `m`
puts for the same `(vertex_id, key)` pair from a fresh cache the index row
holds that composite key `m` times and `get_vertex_entries` returns the
current entry `m` times. -/
theorem put_appends_index_row_unconditionally :
    (∀ (s : VertexCentricCache) (v k : String) (val : List Rat) (cost : Rat) (t : Nat),
      alistLookup v (s.put v k val cost t).vertex_index =
        some ((alistLookup v s.vertex_index).getD []
          ++ [VertexCentricCache.make_cache_key v k]))
    ∧ (∀ (max : Nat) (v k : String) (args : List (List Rat × Rat × Nat))
        (a : List Rat × Rat × Nat),
      ((alistLookup v (applyPutsSame v k (args ++ [a])
          (VertexCentricCache.new max)).vertex_index).getD []).count
          (VertexCentricCache.make_cache_key v k) = args.length + 1
      ∧ (applyPutsSame v k (args ++ [a])
          (VertexCentricCache.new max)).get_vertex_entries v
          = List.replicate (args.length + 1) (mkPutEntry v k a)) := by
  constructor
  · intro s v k val cost t
    exact VertexCentricCache.alistLookup_indexAppend_self v _ s.vertex_index
  · intro max v k args a
    cases args with
    | nil =>
      rw [List.nil_append, applyPutsSame_new_cons v k max a []]
      constructor
      · simp [alistLookup]
      · simp [VertexCentricCache.get_vertex_entries, alistLookup,
          filterMap_replicate_lookup]
    | cons b args' =>
      rw [List.cons_append, applyPutsSame_new_cons v k max b (args' ++ [a])]
      have hfold : (args' ++ [a]).foldl (fun _ x => mkPutEntry v k x) (mkPutEntry v k b)
          = mkPutEntry v k a := by
        rw [List.foldl_append]
        rfl
      rw [hfold]
      constructor
      · simp [alistLookup]
      · simp [VertexCentricCache.get_vertex_entries, alistLookup,
          filterMap_replicate_lookup]

theorem applyOp_preserves_entry_value {s : VertexCentricCache} {ck : String}
    {val : List Rat} {op : CacheOp}
    (hnd : (s.cache.map Prod.fst).Nodup)
    (hput : op.writesKey ck = false)
    (hpres : alistLookup ck (applyOp op s).cache ≠ none)
    (h : ∃ e, alistLookup ck s.cache = some e ∧ e.value = val) :
    ∃ e, alistLookup ck (applyOp op s).cache = some e ∧ e.value = val := by
  obtain ⟨e, he, hev⟩ := h
  cases op with
  | get v k t =>
    cases hl : alistLookup (VertexCentricCache.make_cache_key v k) s.cache with
    | some e₀ =>
      have hstate : applyOp (CacheOp.get v k t) s =
          { s with
            cache := alistInsert (VertexCentricCache.make_cache_key v k)
              { e₀ with access_count := e₀.access_count + 1, timestamp := t } s.cache,
            hits := s.hits + 1 } := by
        show (s.get v k t).2 = _
        rw [VertexCentricCache.get_hit hl]
      rw [hstate]
      dsimp only
      by_cases hck : ck = VertexCentricCache.make_cache_key v k
      · subst hck
        rw [alistLookup_insert_self]
        rw [hl] at he
        cases he
        exact ⟨_, rfl, hev⟩
      · rw [alistLookup_insert_ne hck]
        exact ⟨e, he, hev⟩
    | none =>
      have hstate : applyOp (CacheOp.get v k t) s = { s with misses := s.misses + 1 } := by
        show (s.get v k t).2 = _
        rw [VertexCentricCache.get_miss hl]
      rw [hstate]
      exact ⟨e, he, hev⟩
  | put v k val' cost t =>
    have hckne : ck ≠ VertexCentricCache.make_cache_key v k := by
      intro hcontra
      rw [CacheOp.writesKey, hcontra] at hput
      simp at hput
    have hc : (applyOp (CacheOp.put v k val' cost t) s).cache
        = alistInsert (VertexCentricCache.make_cache_key v k)
            { vertex_id := v, key := k, value := val', timestamp := t,
              access_count := 1, computation_cost := cost }
            (if s.max_entries ≤ s.cache.length then
              VertexCentricCache.evict_lru s.cache else s.cache) := rfl
    rw [hc] at hpres ⊢
    rw [alistLookup_insert_ne hckne] at hpres ⊢
    by_cases hcap : s.max_entries ≤ s.cache.length
    · rw [if_pos hcap] at hpres ⊢
      cases hl : alistLookup ck (VertexCentricCache.evict_lru s.cache) with
      | none => exact absurd hl hpres
      | some e' =>
        have h2 := VertexCentricCache.evict_lru_lookup_some hnd hl
        rw [he] at h2
        have h3 : e = e' := by injection h2
        subst h3
        exact ⟨e, rfl, hev⟩
    · rw [if_neg hcap]
      exact ⟨e, he, hev⟩
  | getVertexEntries v => exact ⟨e, he, hev⟩
  | invalidateVertex v =>
    cases hl : alistLookup v s.vertex_index with
    | some keys =>
      have hstate : applyOp (CacheOp.invalidateVertex v) s =
          { s with
            vertex_index := alistRemove v s.vertex_index,
            cache := keys.foldl (fun c k => alistRemove k c) s.cache } := by
        show s.invalidate_vertex v = _
        rw [VertexCentricCache.invalidate_vertex_row hl]
      rw [hstate] at hpres ⊢
      dsimp only at hpres ⊢
      cases hl2 : alistLookup ck (keys.foldl (fun c k => alistRemove k c) s.cache) with
      | none => exact absurd hl2 hpres
      | some e' =>
        obtain ⟨he', _⟩ := VertexCentricCache.foldl_remove_lookup_some hnd hl2
        rw [he] at he'
        have h3 : e = e' := by injection he'
        subst h3
        exact ⟨e, rfl, hev⟩
    | none =>
      have hstate : applyOp (CacheOp.invalidateVertex v) s = s := by
        show s.invalidate_vertex v = _
        rw [VertexCentricCache.invalidate_vertex_noop hl]
      rw [hstate]
      exact ⟨e, he, hev⟩
  | getStats => exact ⟨e, he, hev⟩
  | clear =>
    exact absurd (by simp [alistLookup] : alistLookup ck (applyOp CacheOp.clear s).cache
      = none) hpres
  | prefetch vs => exact ⟨e, he, hev⟩

theorem applyOps_preserves_entry_value {ops : List CacheOp} :
    ∀ {s : VertexCentricCache} {ck : String} {val : List Rat},
    VertexCentricCache.NodupState s →
    (∀ op ∈ ops, op.writesKey ck = false) →
    (∀ i, alistLookup ck (applyOps (ops.take i) s).cache ≠ none) →
    (∃ e, alistLookup ck s.cache = some e ∧ e.value = val) →
    ∃ e, alistLookup ck (applyOps ops s).cache = some e ∧ e.value = val := by
  induction ops with
  | nil => intro s ck val _ _ _ h; exact h
  | cons op rest ih =>
    intro s ck val hnd hput hpres h
    have hstep : ∃ e, alistLookup ck (applyOp op s).cache = some e ∧ e.value = val := by
      refine applyOp_preserves_entry_value hnd.1 (hput op (List.mem_cons_self _ _)) ?_ h
      have h1 := hpres 1
      rw [List.take_succ_cons, List.take_zero] at h1
      exact h1
    rw [applyOps]
    refine ih (VertexCentricCache.NodupState_applyOp op hnd)
      (fun o ho => hput o (List.mem_cons_of_mem _ ho)) ?_ hstep
    intro i
    have hi := hpres (i + 1)
    rw [List.take_succ_cons, applyOps] at hi
    exact hi

/-- C1 (amended): starting from any reachable cache state, after
`put(v, k, val, cost)` and any further operations during which (a) no
eviction, invalidation or `clear` removes the entry for the composite key
`v ++ ":" ++ k` and (b) no `put` writes that same composite-key string —
condition (b) holds automatically for puts of the same pair only when it
is the last put of the pair, and for other pairs whenever composite keys
do not collide, e.g. for delimiter-free vertex ids — a `get(v, k)` returns
`Some val`, increments the entry's access count, refreshes its timestamp
and increments the global hit counter.  (The original claim, which allows
arbitrary ids with `':'`, fails: a colliding put of a distinct pair
overwrites the entry without any eviction.) -/
theorem get_after_put_returns_stored_value (max : Nat) (ops0 ops : List CacheOp)
    (v k : String) (val : List Rat) (cost : Rat) (t t' : Nat)
    (hput : ∀ op ∈ ops, op.writesKey (VertexCentricCache.make_cache_key v k) = false)
    (hpres : ∀ i, alistLookup (VertexCentricCache.make_cache_key v k)
      (applyOps (ops.take i)
        ((applyOps ops0 (VertexCentricCache.new max)).put v k val cost t)).cache ≠ none) :
    ∃ e, alistLookup (VertexCentricCache.make_cache_key v k)
        (applyOps ops
          ((applyOps ops0 (VertexCentricCache.new max)).put v k val cost t)).cache
        = some e
      ∧ e.value = val
      ∧ ((applyOps ops
          ((applyOps ops0 (VertexCentricCache.new max)).put v k val cost t)).get
            v k t').1 = some val
      ∧ ((applyOps ops
          ((applyOps ops0 (VertexCentricCache.new max)).put v k val cost t)).get
            v k t').2.hits
        = (applyOps ops
            ((applyOps ops0 (VertexCentricCache.new max)).put v k val cost t)).hits + 1
      ∧ alistLookup (VertexCentricCache.make_cache_key v k)
          ((applyOps ops
            ((applyOps ops0 (VertexCentricCache.new max)).put v k val cost t)).get
              v k t').2.cache
        = some { e with access_count := e.access_count + 1, timestamp := t' } := by
  have hgood0 : VertexCentricCache.GoodState (applyOps ops0 (VertexCentricCache.new max)) :=
    VertexCentricCache.GoodState_applyOps (VertexCentricCache.GoodState_new max)
  have hnd1 : VertexCentricCache.NodupState
      ((applyOps ops0 (VertexCentricCache.new max)).put v k val cost t) :=
    VertexCentricCache.NodupState_applyOp (CacheOp.put v k val cost t) hgood0.1
  have hinit : ∃ e, alistLookup (VertexCentricCache.make_cache_key v k)
      ((applyOps ops0 (VertexCentricCache.new max)).put v k val cost t).cache = some e
      ∧ e.value = val := by
    refine ⟨{ vertex_id := v, key := k, value := val, timestamp := t,
              access_count := 1, computation_cost := cost }, ?_, rfl⟩
    exact alistLookup_insert_self _ _ _
  obtain ⟨e, he, hev⟩ := applyOps_preserves_entry_value hnd1 hput hpres hinit
  refine ⟨e, he, hev, ?_, ?_, ?_⟩
  · rw [VertexCentricCache.get_hit he, hev]
  · rw [VertexCentricCache.get_hit he]
  · rw [VertexCentricCache.get_hit he]
    exact alistLookup_insert_self _ _ _

/-- C1 witness: a concrete put followed by an unrelated get; the original
entry still hits with the stored value, the bumped access count, the fresh
timestamp and the incremented hit counter. -/
theorem get_after_put_returns_stored_value_witness :
    ∃ e, alistLookup (VertexCentricCache.make_cache_key "v" "w")
        (applyOps [CacheOp.get "x" "y" 3]
          ((applyOps [] (VertexCentricCache.new 10)).put "v" "w" [3, 4] 2 0)).cache
        = some e
      ∧ e.value = [3, 4]
      ∧ ((applyOps [CacheOp.get "x" "y" 3]
          ((applyOps [] (VertexCentricCache.new 10)).put "v" "w" [3, 4] 2 0)).get
            "v" "w" 7).1 = some [3, 4]
      ∧ ((applyOps [CacheOp.get "x" "y" 3]
          ((applyOps [] (VertexCentricCache.new 10)).put "v" "w" [3, 4] 2 0)).get
            "v" "w" 7).2.hits
        = (applyOps [CacheOp.get "x" "y" 3]
            ((applyOps [] (VertexCentricCache.new 10)).put "v" "w" [3, 4] 2 0)).hits + 1
      ∧ alistLookup (VertexCentricCache.make_cache_key "v" "w")
          ((applyOps [CacheOp.get "x" "y" 3]
            ((applyOps [] (VertexCentricCache.new 10)).put "v" "w" [3, 4] 2 0)).get
              "v" "w" 7).2.cache
        = some { vertex_id := "v", key := "w", value := [3, 4], timestamp := 7,
                 access_count := 2, computation_cost := 2 } := by
  have h := get_after_put_returns_stored_value 10 [] [CacheOp.get "x" "y" 3]
    "v" "w" [3, 4] 2 0 7
    (by decide)
    (by
      intro i
      cases i with
      | zero => decide
      | succ j =>
        rw [List.take_succ_cons, List.take_nil]
        decide)
  obtain ⟨e, he, hev, h1, h2, h3⟩ := h
  have hee : e = { vertex_id := "v", key := "w", value := [3, 4], timestamp := 0,
                   access_count := 1, computation_cost := 2 } := by
    have hconc : alistLookup (VertexCentricCache.make_cache_key "v" "w")
        (applyOps [CacheOp.get "x" "y" 3]
          ((applyOps [] (VertexCentricCache.new 10)).put "v" "w" [3, 4] 2 0)).cache
        = some { vertex_id := "v", key := "w", value := [3, 4], timestamp := 0,
                 access_count := 1, computation_cost := 2 } := by decide
    rw [hconc] at he
    injection he with he
    exact he.symm
  subst hee
  exact ⟨_, he, hev, h1, h2, h3⟩

/-- C1 counterexample: `put("a:b", "c", [1])` then `put("a", "b:c", [2])`
— two distinct pairs sharing the composite key `"a:b:c"`.  The entry for
the composite key of `("a:b", "c")` stays present throughout (no eviction
removes it), yet `get("a:b", "c")` returns `[2]`, not the value `[1]` most
recently stored for that pair. -/
theorem get_after_put_collision_counterexample :
    ((((VertexCentricCache.new 10).put "a:b" "c" [1] 0 0).put "a" "b:c" [2] 0 1).get
        "a:b" "c" 2).1 = some [2]
    ∧ (alistLookup (VertexCentricCache.make_cache_key "a:b" "c")
        ((((VertexCentricCache.new 10).put "a:b" "c" [1] 0 0).put "a" "b:c" [2] 0 1)).cache).isSome
      = true
    ∧ VertexCentricCache.make_cache_key "a" "b:c"
      = VertexCentricCache.make_cache_key "a:b" "c"
    ∧ some [2] ≠ (some [1] : Option (List Rat)) := by
  decide

theorem get_vertex_entries_of_no_row {s : VertexCentricCache} {v : String}
    (h : alistLookup v s.vertex_index = none) : s.get_vertex_entries v = [] := by
  simp [VertexCentricCache.get_vertex_entries, h]

theorem invalidate_vertex_no_row_after {s : VertexCentricCache} {v : String}
    (hnd : VertexCentricCache.NodupState s) :
    alistLookup v (s.invalidate_vertex v).vertex_index = none := by
  cases hl : alistLookup v s.vertex_index with
  | some keys =>
    rw [VertexCentricCache.invalidate_vertex_row hl]
    exact alistLookup_remove_self hnd.2
  | none =>
    rw [VertexCentricCache.invalidate_vertex_noop hl]
    exact hl

/-- C5 (amended): `invalidate_vertex(v)` is a no-op when `v` has no index
row, and on any reachable state it removes `v`'s index row and every cache
entry the row referenced, so that `get_vertex_entries(v)` afterwards
returns `[]`.  The further consequence "no composite key for `v` remains
retrievable via `get(v, k)`" holds provided every vertex id used by the
prior `put`s — and `v` itself — avoids the `':'` delimiter; with `':'` in
ids a colliding pair indexed under another vertex can keep `get(v, k)`
hitting (see the counterexample). -/
theorem invalidate_vertex_clears_vertex (max : Nat) (ops : List CacheOp) (v : String) :
    (∀ s : VertexCentricCache, alistLookup v s.vertex_index = none →
      s.invalidate_vertex v = s)
    ∧ ((applyOps ops (VertexCentricCache.new max)).invalidate_vertex v).get_vertex_entries v
        = []
    ∧ (colonFree v = true → (∀ op ∈ ops, op.putVertexColonFree = true) →
      ∀ k t, (((applyOps ops (VertexCentricCache.new max)).invalidate_vertex v).get
        v k t).1 = none) := by
  have hgood : VertexCentricCache.GoodState (applyOps ops (VertexCentricCache.new max)) :=
    VertexCentricCache.GoodState_applyOps (VertexCentricCache.GoodState_new max)
  have hnorow : alistLookup v
      ((applyOps ops (VertexCentricCache.new max)).invalidate_vertex v).vertex_index
      = none := invalidate_vertex_no_row_after hgood.1
  refine ⟨fun s hs => VertexCentricCache.invalidate_vertex_noop hs,
    get_vertex_entries_of_no_row hnorow, ?_⟩
  intro hv hops k t
  have hgood' : VertexCentricCache.GoodState
      ((applyOps ops (VertexCentricCache.new max)).invalidate_vertex v) :=
    VertexCentricCache.GoodState_applyOp (CacheOp.invalidateVertex v) hgood
  have hcf' : VertexCentricCache.VertsColonFree
      ((applyOps ops (VertexCentricCache.new max)).invalidate_vertex v) := by
    have hcf : VertexCentricCache.VertsColonFree (applyOps ops (VertexCentricCache.new max)) :=
      VertexCentricCache.VertsColonFree_applyOps hops
        (VertexCentricCache.GoodState_new max) (VertexCentricCache.VertsColonFree_new max)
    exact @VertexCentricCache.VertsColonFree_applyOp _ (CacheOp.invalidateVertex v)
      rfl hgood.1 hcf
  cases hl : alistLookup (VertexCentricCache.make_cache_key v k)
      ((applyOps ops (VertexCentricCache.new max)).invalidate_vertex v).cache with
  | none => rw [VertexCentricCache.get_miss hl]
  | some e =>
    obtain ⟨hshape, row, hrow, _⟩ := hgood'.2 _ _ hl
    have hecf : colonFree e.vertex_id = true := hcf' _ _ hl
    obtain ⟨hvv, -⟩ := VertexCentricCache.make_cache_key_inj hecf hv hshape.symm
    rw [hvv] at hrow
    rw [hnorow] at hrow
    exact absurd hrow (by simp)

/-- C5 witness: a put under vertex `"a"`, then `invalidate_vertex("a")`:
the vertex's entry list is empty and the invalidated key misses. -/
theorem invalidate_vertex_clears_vertex_witness :
    (((VertexCentricCache.new 10).invalidate_vertex "z")
      = (VertexCentricCache.new 10))
    ∧ ((applyOps [CacheOp.put "a" "x" [5] 0 0]
        (VertexCentricCache.new 10)).invalidate_vertex "a").get_vertex_entries "a" = []
    ∧ (((applyOps [CacheOp.put "a" "x" [5] 0 0]
        (VertexCentricCache.new 10)).invalidate_vertex "a").get "a" "x" 9).1 = none :=
  ⟨(invalidate_vertex_clears_vertex 10 [CacheOp.put "a" "x" [5] 0 0] "a").1
      (VertexCentricCache.new 10) (by decide),
    (invalidate_vertex_clears_vertex 10 [CacheOp.put "a" "x" [5] 0 0] "a").2.1,
    (invalidate_vertex_clears_vertex 10 [CacheOp.put "a" "x" [5] 0 0] "a").2.2
      (by decide) (by decide) "x" 9⟩

/-- C5 counterexample: `put("a:b", "c", [1])` stores the composite key
`"a:b:c"` under vertex `"a:b"`; `invalidate_vertex("a")` is a no-op (no
row for `"a"`), yet `get("a", "b:c")` — a composite key for vertex `"a"`
— still returns `Some [1]`, so a composite key for the invalidated vertex
remains retrievable. -/
theorem invalidate_vertex_collision_counterexample :
    ((((VertexCentricCache.new 10).put "a:b" "c" [1] 0 0).invalidate_vertex "a").get
        "a" "b:c" 1).1 = some [1]
    ∧ (((VertexCentricCache.new 10).put "a:b" "c" [1] 0 0).invalidate_vertex
        "a").get_vertex_entries "a" = [] := by
  decide

/-! ## Streaming lemmas -/

theorem listChunks_length (c : Nat) : ∀ (n : Nat) (l : List Nat), l.length ≤ n →
    (listChunks (c + 1) l).length = (l.length + c) / (c + 1) := by
  intro n
  induction n with
  | zero =>
    intro l h
    have hl : l = [] := List.eq_nil_of_length_eq_zero (Nat.le_zero.mp h)
    subst hl
    simp [Nat.div_eq_of_lt (Nat.lt_succ_self c)]
  | succ n ih =>
    intro l h
    cases l with
    | nil => simp [Nat.div_eq_of_lt (Nat.lt_succ_self c)]
    | cons x xs =>
      rw [listChunks_cons]
      simp only [List.length_cons]
      have hd : (xs.drop c).length ≤ n := by
        simp only [List.length_drop, List.length_cons] at *
        omega
      rw [ih (xs.drop c) hd, List.length_drop]
      by_cases hc : c ≤ xs.length
      · rw [Nat.sub_add_cancel hc]
        have h2 : xs.length + 1 + c = xs.length + (c + 1) := by omega
        rw [h2, Nat.add_div_right _ (Nat.succ_pos c)]
      · have h1 : xs.length - c = 0 := by omega
        rw [h1]
        have h3 : xs.length + 1 + c = (xs.length + 1 + c - (c + 1)) + (c + 1) := by omega
        rw [h3, Nat.add_div_right _ (Nat.succ_pos c),
          Nat.div_eq_of_lt (by omega : xs.length + 1 + c - (c + 1) < c + 1),
          Nat.div_eq_of_lt (by omega : 0 + c < c + 1)]

theorem listChunks_flatten (c : Nat) : ∀ (n : Nat) (l : List Nat), l.length ≤ n →
    (listChunks (c + 1) l).flatten = l := by
  intro n
  induction n with
  | zero =>
    intro l h
    have hl : l = [] := List.eq_nil_of_length_eq_zero (Nat.le_zero.mp h)
    subst hl
    simp
  | succ n ih =>
    intro l h
    cases l with
    | nil => simp
    | cons x xs =>
      rw [listChunks_cons]
      have hd : (xs.drop c).length ≤ n := by
        simp only [List.length_drop, List.length_cons] at *
        omega
      rw [List.flatten_cons, ih (xs.drop c) hd]
      rw [show xs.drop c = (x :: xs).drop (c + 1) from rfl]
      exact List.take_append_drop (c + 1) (x :: xs)

theorem listChunks_mem_infix (c : Nat) : ∀ (n : Nat) (l : List Nat), l.length ≤ n →
    ∀ ch ∈ listChunks (c + 1) l, List.IsInfix ch l := by
  intro n
  induction n with
  | zero =>
    intro l h
    have hl : l = [] := List.eq_nil_of_length_eq_zero (Nat.le_zero.mp h)
    subst hl
    simp
  | succ n ih =>
    intro l h
    cases l with
    | nil => simp
    | cons x xs =>
      rw [listChunks_cons]
      intro ch hch
      rcases List.mem_cons.mp hch with hch | hch
      · subst hch
        exact ( List.take_prefix (c + 1) (x :: xs)).isInfix
      · have hd : (xs.drop c).length ≤ n := by
          simp only [List.length_drop, List.length_cons] at *
          omega
        have hinf := ih (xs.drop c) hd ch hch
        have hsuf : List.IsSuffix (xs.drop c) (x :: xs) := by
          rw [show xs.drop c = (x :: xs).drop (c + 1) from rfl]
          exact List.drop_suffix (c + 1) (x :: xs)
        exact hinf.trans hsuf.isInfix

theorem listChunks_length_pos {c : Nat} (hc : 0 < c) (l : List Nat) :
    (listChunks c l).length = (l.length + c - 1) / c := by
  obtain ⟨d, rfl⟩ : ∃ d, c = d + 1 := ⟨c - 1, by omega⟩
  rw [listChunks_length d l.length l (Nat.le_refl _)]
  have harith : l.length + (d + 1) - 1 = l.length + d := by omega
  rw [harith]

theorem listChunks_flatten_pos {c : Nat} (hc : 0 < c) (l : List Nat) :
    (listChunks c l).flatten = l := by
  obtain ⟨d, rfl⟩ : ∃ d, c = d + 1 := ⟨c - 1, by omega⟩
  exact listChunks_flatten d l.length l (Nat.le_refl _)

theorem listChunks_infix_pos {c : Nat} (hc : 0 < c) (l : List Nat) :
    ∀ ch ∈ listChunks c l, List.IsInfix ch l := by
  obtain ⟨d, rfl⟩ : ∃ d, c = d + 1 := ⟨c - 1, by omega⟩
  exact listChunks_mem_infix d l.length l (Nat.le_refl _)

namespace StreamingInference

theorem streamLoop_fst (cfg : StreamConfig) (clock : Nat → Nat) (total : Nat) :
    ∀ (l : List (Nat × List Nat)) (s : VertexCentricCache),
    (streamLoop cfg clock total l s).1
      = l.map (fun p => mkChunk cfg clock total p.1 p.2) := by
  intro l
  induction l with
  | nil => intro s; rfl
  | cons p rest ih =>
    intro s
    simp [streamLoop, ih]

theorem stream_task_ok (cfg : StreamConfig) (clock : Nat → Nat) (s : VertexCentricCache)
    (answer : List Nat) :
    (stream_task cfg (Except.ok answer) clock s).1
      = (listChunks cfg.chunk_size answer).enum.map
          (fun p => mkChunk cfg clock (listChunks cfg.chunk_size answer).length p.1 p.2) := by
  show (streamLoop cfg clock _ _ s).1 = _
  exact streamLoop_fst cfg clock _ _ s

/-- `collect_stream` concatenates all contents when only the last received
chunk may carry the final flag. -/
theorem collect_stream_eq_flatten : ∀ (l : List StreamChunk),
    (∀ i (h : i < l.length), (l.get ⟨i, h⟩).is_final = true → i = l.length - 1) →
    collect_stream l = (l.map (fun ch => ch.content)).flatten := by
  intro l
  induction l with
  | nil => intro _; rfl
  | cons ch rest ih =>
    intro hfin
    cases hrest : rest with
    | nil =>
      by_cases hf : ch.is_final
      · simp [collect_stream, hf]
      · simp [collect_stream, hf]
    | cons ch2 rest2 =>
      have hnotfin : ch.is_final = false := by
        by_contra hcontra
        have hf : ch.is_final = true := by
          cases hb : ch.is_final
          · exact absurd hb hcontra
          · rfl
        have := hfin 0 (by simp) hf
        rw [hrest] at this
        simp at this
      rw [collect_stream]
      rw [if_neg (by simp [hnotfin])]
      rw [List.map_cons, List.flatten_cons]
      congr 1
      rw [← hrest]
      refine ih ?_
      intro i hi hf
      have := hfin (i + 1) (by simp only [List.length_cons]; omega) (by
        rw [List.get_cons_succ]
        exact hf)
      simp only [List.length_cons] at this
      omega

end StreamingInference

namespace StreamingInference

theorem stream_out_length (cfg : StreamConfig) (clock : Nat → Nat) (s : VertexCentricCache)
    (answer : List Nat) :
    (stream_task cfg (Except.ok answer) clock s).1.length
      = (listChunks cfg.chunk_size answer).length := by
  rw [stream_task_ok, List.length_map, List.enum_length]

theorem stream_out_map_chunk_id (cfg : StreamConfig) (clock : Nat → Nat)
    (s : VertexCentricCache) (answer : List Nat) :
    (stream_task cfg (Except.ok answer) clock s).1.map (fun ch => ch.chunk_id)
      = List.range (listChunks cfg.chunk_size answer).length := by
  rw [stream_task_ok, List.map_map]
  rw [show ((fun ch => ch.chunk_id) ∘
      (fun p : Nat × List Nat => mkChunk cfg clock
        (listChunks cfg.chunk_size answer).length p.1 p.2)) = Prod.fst from rfl]
  exact List.enum_map_fst _

theorem stream_out_map_is_final (cfg : StreamConfig) (clock : Nat → Nat)
    (s : VertexCentricCache) (answer : List Nat) :
    (stream_task cfg (Except.ok answer) clock s).1.map (fun ch => ch.is_final)
      = (List.range (listChunks cfg.chunk_size answer).length).map
          (fun j => decide (j = (listChunks cfg.chunk_size answer).length - 1)) := by
  rw [stream_task_ok, List.map_map]
  rw [show ((fun ch => ch.is_final) ∘
      (fun p : Nat × List Nat => mkChunk cfg clock
        (listChunks cfg.chunk_size answer).length p.1 p.2))
      = ((fun j => decide (j = (listChunks cfg.chunk_size answer).length - 1)) ∘ Prod.fst)
    from rfl]
  rw [← List.map_map, List.enum_map_fst]

theorem stream_out_map_content (cfg : StreamConfig) (clock : Nat → Nat)
    (s : VertexCentricCache) (answer : List Nat) :
    (stream_task cfg (Except.ok answer) clock s).1.map (fun ch => ch.content)
      = (listChunks cfg.chunk_size answer).map
          (fun bs => if utf8Valid bs then bs else []) := by
  rw [stream_task_ok, List.map_map]
  rw [show ((fun ch => ch.content) ∘
      (fun p : Nat × List Nat => mkChunk cfg clock
        (listChunks cfg.chunk_size answer).length p.1 p.2))
      = ((fun bs => if utf8Valid bs then bs else []) ∘ Prod.snd) from rfl]
  rw [← List.map_map, List.enum_map_snd]

end StreamingInference

/-- C3: for an answer of `L` bytes and a configured chunk size `c > 0`
(`slice::chunks` panics for `c = 0`, so no chunk is ever produced there),
the fully drained stream consists of exactly `⌈L/c⌉` chunks, whose ids are
`0, 1, …, count−1` in this order (each exactly once), with `is_final` true
exactly on the last emitted chunk — hence no chunk after the final one. -/
theorem stream_chunk_sequencing (cfg : StreamConfig) (answer : List Nat) (clock : Nat → Nat)
    (s : VertexCentricCache) (hc : 0 < cfg.chunk_size) :
    ((StreamingInference.stream_task cfg (Except.ok answer) clock s).1.length
        = (answer.length + cfg.chunk_size - 1) / cfg.chunk_size)
    ∧ ((StreamingInference.stream_task cfg (Except.ok answer) clock s).1.map
          (fun ch => ch.chunk_id)
        = List.range
            (StreamingInference.stream_task cfg (Except.ok answer) clock s).1.length)
    ∧ ((StreamingInference.stream_task cfg (Except.ok answer) clock s).1.map
          (fun ch => ch.is_final)
        = (List.range
            (StreamingInference.stream_task cfg (Except.ok answer) clock s).1.length).map
          (fun j => decide
            (j = (StreamingInference.stream_task cfg (Except.ok answer) clock s).1.length
              - 1))) := by
  have hlen := StreamingInference.stream_out_length cfg clock s answer
  refine ⟨?_, ?_, ?_⟩
  · rw [hlen, listChunks_length_pos hc]
  · rw [StreamingInference.stream_out_map_chunk_id cfg clock s answer, hlen]
  · rw [StreamingInference.stream_out_map_is_final cfg clock s answer, hlen]

/-- C3 witness: a five-byte answer with chunk size 2 yields three chunks
with ids `0, 1, 2` and the final flag only on the last. -/
theorem stream_chunk_sequencing_witness :
    ((StreamingInference.stream_task
        { chunk_size := 2, chunk_delay_ms := 100, enable_parallel_graph := false,
          max_concurrent_ops := 4 }
        (Except.ok (asciiBytes "abcde")) (fun _ => 0) (VertexCentricCache.new 4)).1.length
        = (5 + 2 - 1) / 2)
    ∧ ((StreamingInference.stream_task
        { chunk_size := 2, chunk_delay_ms := 100, enable_parallel_graph := false,
          max_concurrent_ops := 4 }
        (Except.ok (asciiBytes "abcde")) (fun _ => 0) (VertexCentricCache.new 4)).1.map
          (fun ch => ch.chunk_id)
        = List.range
            (StreamingInference.stream_task
              { chunk_size := 2, chunk_delay_ms := 100, enable_parallel_graph := false,
                max_concurrent_ops := 4 }
              (Except.ok (asciiBytes "abcde")) (fun _ => 0)
              (VertexCentricCache.new 4)).1.length)
    ∧ ((StreamingInference.stream_task
        { chunk_size := 2, chunk_delay_ms := 100, enable_parallel_graph := false,
          max_concurrent_ops := 4 }
        (Except.ok (asciiBytes "abcde")) (fun _ => 0) (VertexCentricCache.new 4)).1.map
          (fun ch => ch.is_final)
        = (List.range
            (StreamingInference.stream_task
              { chunk_size := 2, chunk_delay_ms := 100, enable_parallel_graph := false,
                max_concurrent_ops := 4 }
              (Except.ok (asciiBytes "abcde")) (fun _ => 0)
              (VertexCentricCache.new 4)).1.length).map
          (fun j => decide
            (j = (StreamingInference.stream_task
              { chunk_size := 2, chunk_delay_ms := 100, enable_parallel_graph := false,
                max_concurrent_ops := 4 }
              (Except.ok (asciiBytes "abcde")) (fun _ => 0)
              (VertexCentricCache.new 4)).1.length - 1))) := by
  have h := stream_chunk_sequencing
    { chunk_size := 2, chunk_delay_ms := 100, enable_parallel_graph := false,
      max_concurrent_ops := 4 }
    (asciiBytes "abcde") (fun _ => 0) (VertexCentricCache.new 4) (by decide)
  simpa using h

/-- C10: the `cache_hits` metadata of every emitted chunk equals
`chunk_id % 3` — a simulated figure, independent of the cache state and of
the outcomes of the four concurrent probes (the state `s` is universally
quantified). -/
theorem chunk_cache_hits_simulated (cfg : StreamConfig)
    (res : Except Unit (List Nat)) (clock : Nat → Nat) (s : VertexCentricCache) :
    (StreamingInference.stream_task cfg res clock s).1.map
        (fun ch => ch.metadata.cache_hits)
      = (StreamingInference.stream_task cfg res clock s).1.map
        (fun ch => ch.chunk_id % 3) := by
  cases res with
  | error e => rfl
  | ok answer =>
    rw [StreamingInference.stream_task_ok, List.map_map, List.map_map]
    rfl

/-- C4 (amended): if the Reasoner call fails, the background task
terminates with zero chunks sent — but the caller can NOT distinguish this
from an empty-but-successful stream: the observable chunk sequence (and
even the cache state) is identical to that of a successful call whose
answer is empty; the error is only logged inside the spawned task. -/
theorem reasoner_failure_zero_chunks (cfg : StreamConfig) (e : Unit) (clock : Nat → Nat)
    (s : VertexCentricCache) :
    StreamingInference.stream_task cfg (Except.error e) clock s = ([], s)
    ∧ StreamingInference.stream_task cfg (Except.error e) clock s
      = StreamingInference.stream_task cfg (Except.ok []) clock s := by
  refine ⟨rfl, ?_⟩
  show ([], s) = StreamingInference.stream_task cfg (Except.ok []) clock s
  rw [StreamingInference.stream_task, listChunks_nil]
  rfl

/-- C4 counterexample: with the default configuration, the stream produced
for a failing Reasoner is byte-for-byte the same observable as the stream
for a successful empty answer — so the required distinguishability does
not hold. -/
theorem reasoner_failure_indistinguishable :
    StreamingInference.stream_task StreamConfig.default (Except.error ()) (fun _ => 0)
        (VertexCentricCache.new 4)
      = StreamingInference.stream_task StreamConfig.default (Except.ok []) (fun _ => 0)
        (VertexCentricCache.new 4) := by
  decide

/-- C6 (amended): every emitted chunk's content is a substring (infix) of
the final answer — the UTF-8 fallback `unwrap_or("")` only ever replaces a
slice by the empty string — and `collect_stream` returns the concatenation
of the contents, which equals the full answer provided every byte slice is
valid UTF-8 (in particular for every ASCII answer, such as the spec's
`["ab","cd","ef"]` example).  The unconditional round-trip of the original
claim fails when a chunk boundary splits a multi-byte character: that
chunk decodes to `""` and its bytes are lost (see the counterexample). -/
theorem stream_content_roundtrip (cfg : StreamConfig) (answer : List Nat)
    (clock : Nat → Nat) (s : VertexCentricCache) (hc : 0 < cfg.chunk_size) :
    (∀ ch ∈ (StreamingInference.stream_task cfg (Except.ok answer) clock s).1,
      List.IsInfix ch.content answer)
    ∧ ((∀ bs ∈ listChunks cfg.chunk_size answer, utf8Valid bs = true) →
      StreamingInference.collect_stream
        (StreamingInference.stream_task cfg (Except.ok answer) clock s).1 = answer) := by
  constructor
  · intro ch hch
    rw [StreamingInference.stream_task_ok] at hch
    obtain ⟨p, hp, rfl⟩ := List.mem_map.mp hch
    show List.IsInfix (if utf8Valid p.2 then p.2 else []) answer
    by_cases hval : utf8Valid p.2
    · rw [if_pos hval]
      have hmem : p.2 ∈ listChunks cfg.chunk_size answer := by
        have hsnd := List.enum_map_snd (listChunks cfg.chunk_size answer)
        rw [← hsnd]
        exact List.mem_map_of_mem Prod.snd hp
      exact listChunks_infix_pos hc answer p.2 hmem
    · rw [if_neg hval]
      exact List.nil_infix
  · intro hvalid
    have hlen := StreamingInference.stream_out_length cfg clock s answer
    have hfin : ∀ i (h : i <
        (StreamingInference.stream_task cfg (Except.ok answer) clock s).1.length),
        ((StreamingInference.stream_task cfg (Except.ok answer) clock s).1.get
          ⟨i, h⟩).is_final = true →
        i = (StreamingInference.stream_task cfg (Except.ok answer) clock s).1.length - 1 := by
      intro i hi hf
      have hic : i < (listChunks cfg.chunk_size answer).length := by
        rw [← hlen]
        exact hi
      have e1 : (StreamingInference.stream_task cfg (Except.ok answer) clock s).1[i]
          = StreamingInference.mkChunk cfg clock (listChunks cfg.chunk_size answer).length
              i ((listChunks cfg.chunk_size answer)[i]) := by
        rw [List.getElem_of_eq (StreamingInference.stream_task_ok cfg clock s answer) hi]
        rw [List.getElem_map, List.getElem_enum]
      have hfi : ((StreamingInference.stream_task cfg (Except.ok answer) clock s).1[i]).is_final
          = decide (i = (listChunks cfg.chunk_size answer).length - 1) := by
        rw [e1]
        rfl
      rw [List.get_eq_getElem] at hf
      have hdec := hfi.symm.trans hf
      rw [hlen]
      exact of_decide_eq_true hdec
    rw [StreamingInference.collect_stream_eq_flatten _ hfin,
      StreamingInference.stream_out_map_content cfg clock s answer]
    have hmapid : (listChunks cfg.chunk_size answer).map
        (fun bs => if utf8Valid bs then bs else [])
        = (listChunks cfg.chunk_size answer).map id := by
      refine List.map_congr_left ?_
      intro bs hbs
      rw [if_pos (hvalid bs hbs)]
      rfl
    rw [hmapid, List.map_id]
    exact listChunks_flatten_pos hc answer

/-- C6 witness: the spec's example — slices `"ab"`, `"cd"`, `"ef"` —
collected back into `"abcdef"` (chunk size 2 over the six-byte answer). -/
theorem stream_content_roundtrip_witness :
    StreamingInference.collect_stream
      (StreamingInference.stream_task
        { chunk_size := 2, chunk_delay_ms := 100, enable_parallel_graph := false,
          max_concurrent_ops := 4 }
        (Except.ok (asciiBytes "abcdef")) (fun _ => 0) (VertexCentricCache.new 4)).1
      = asciiBytes "abcdef" :=
  (stream_content_roundtrip
    { chunk_size := 2, chunk_delay_ms := 100, enable_parallel_graph := false,
      max_concurrent_ops := 4 }
    (asciiBytes "abcdef") (fun _ => 0) (VertexCentricCache.new 4) (by decide)).2
    (by decide)

/-- C6 counterexample: the Reasoner's answer for the query `"é"` embeds
the two-byte UTF-8 character `0xC3 0xA9`; with chunk size 1 each of those
bytes forms its own slice, `from_utf8` fails on both, `unwrap_or("")`
turns them into empty contents, and the collected stream is two bytes
short of the answer. -/
theorem stream_content_loss_counterexample :
    StreamingInference.collect_stream
      (StreamingInference.stream_task
        { chunk_size := 1, chunk_delay_ms := 100, enable_parallel_graph := false,
          max_concurrent_ops := 4 }
        (Except.ok (reasonerFinalAnswer [0xC3, 0xA9])) (fun _ => 0)
        (VertexCentricCache.new 4)).1
      ≠ reasonerFinalAnswer [0xC3, 0xA9] := by
  decide
